import Mathlib

/-!
Verification of the `unlimitedchannel` Go package.

The package adapts a bounded, blocking channel into one with unbounded
buffering.  Its core pieces, embedded shallowly here, are:

* `queue.go`: a singly linked FIFO queue with a node pool.  Nodes live in an
  addressed store (`store`, addresses are list indices, mirroring Go heap
  pointers), so aliasing of `head`/`tail` and the clearing of dequeued nodes
  are modelled exactly as the Go code performs them.
* the worker loop `run` (current implementation): moves values from the
  input channel, through the queue and a single pending-output slot, to the
  output channel.  The interaction with the two channels is modelled by the
  list of values the producer sends before closing the input channel
  (`inputs`) and a schedule (`sched`) resolving the `select` nondeterminism
  between "send to output" and "receive from input" whenever both are
  enabled; recursion is bounded by explicit fuel.
* the older worker variant `Channel.run` that routes every value through the
  queue (`pick`/`dequeue` based, no bypass slot).
* the option builder (`buildOptions`/`New`) and the release/drain protocol
  (`release`, wrapped in `sync.OnceFunc`).
-/

namespace UnlimitedChannel

/-- Queue node: `queueElement[T]` from queue.go.  `next` holds the address of
the next node in the store, or `none` for the nil pointer. -/
structure Elem (T : Type) where
  value : T
  next : Option Nat
deriving DecidableEq

instance [Inhabited T] : Inhabited (Elem T) := ⟨⟨default, none⟩⟩

/-- The queue `queue[T]` from queue.go.  `head`/`tail` are node addresses
(`none` = nil pointer), `pool` models `elemPool` (the free list of recycled
node addresses), and `store` is the heap of allocated nodes, indexed by
address. -/
structure queue (T : Type) where
  head : Option Nat
  tail : Option Nat
  pool : List Nat
  store : List (Elem T)
deriving DecidableEq

/-- The zero value `new(queue[T])`. -/
def emptyQueue (T : Type) : queue T := ⟨none, none, [], []⟩

/-- Dereference a node address (Go would follow the pointer). -/
def storeGet [Inhabited T] (store : List (Elem T)) (a : Nat) : Elem T :=
  (store[a]?).getD default

/-- `(q *queue[T]) enqueue(value T)` from queue.go: reuse a pooled node if
available, else allocate a fresh one; set its value; append it at the tail. -/
def queue.enqueue [Inhabited T] (q : queue T) (value : T) : queue T :=
  -- newElem := q.elemPool.Get(); if newElem == nil { newElem = &queueElement[T]{} }
  let alloc : Nat × List Nat × List (Elem T) :=
    match q.pool with
    | a :: rest => (a, rest, q.store)
    | [] => (q.store.length, [], q.store ++ [⟨default, none⟩])
  match alloc with
  | (a, pool, store) =>
    -- newElem.value = value
    let store := store.set a ⟨value, (storeGet store a).next⟩
    -- if q.head == nil { q.head = newElem }
    let head := if q.head = none then some a else q.head
    -- if q.tail != nil { q.tail.next = newElem }
    let store :=
      match q.tail with
      | some t => store.set t ⟨(storeGet store t).value, some a⟩
      | none => store
    -- q.tail = newElem
    { head := head, tail := some a, pool := pool, store := store }

/-- `(q *queue[T]) dequeue() (T, bool)` from queue.go: on an empty queue
return the zero value and false; otherwise unlink the head node, clear its
value and next link, put it in the pool, and return its value. -/
def queue.dequeue [Inhabited T] (q : queue T) : (T × Bool) × queue T :=
  match q.head with
  | none => ((default, false), q)
  | some h =>
    let oldElem := storeGet q.store h
    let value := oldElem.value
    let head := oldElem.next
    -- if q.head == nil { q.tail = nil }
    let tail := if head = none then none else q.tail
    -- oldElem.value = zero; oldElem.next = nil; q.elemPool.Put(oldElem)
    let store := q.store.set h ⟨default, none⟩
    ((value, true), { head := head, tail := tail, pool := h :: q.pool, store := store })

/-- `(q *queue[T]) pick() (T, bool)` from queue.go: return the head value
without removing it. -/
def queue.pick [Inhabited T] (q : queue T) : T × Bool :=
  match q.head with
  | none => (default, false)
  | some h => ((storeGet q.store h).value, true)

/-- `(q *queue[T]) reset()` from queue.go: drop the head and tail references. -/
def queue.reset (q : queue T) : queue T :=
  { q with head := none, tail := none }

/-- The chain of node addresses reachable from `o` by following `next`
links is exactly `addrs` (ending in a nil `next`). -/
def chainB (store : List (Elem T)) : Option Nat → List Nat → Bool
  | none, [] => true
  | some _, [] => false
  | none, _ :: _ => false
  | some a, b :: rest =>
    a == b &&
      match store[a]? with
      | some e => chainB store e.next rest
      | none => false

/-- Every pooled address holds an allocated node whose next link is nil
(dequeue clears it before `Put`). -/
def poolB (store : List (Elem T)) (pool : List Nat) : Bool :=
  pool.all fun a =>
    match store[a]? with
    | some e => e.next == none
    | none => false

/-- Representation invariant of the queue: `addrs` is the list of node
addresses from `head` via `next` links, `tail` is the last of them, all
chain and pool addresses are distinct, and pooled nodes have a cleared
next link. -/
def Rep (q : queue T) (addrs : List Nat) : Prop :=
  chainB q.store q.head addrs = true ∧
  q.tail = addrs.getLast? ∧
  (addrs ++ q.pool).Nodup ∧
  poolB q.store q.pool = true

instance (q : queue T) (addrs : List Nat) : Decidable (Rep q addrs) := by
  unfold Rep; exact instDecidableAnd

/-- The values stored in the queue, in traversal order of the chain. -/
def qVals [Inhabited T] (store : List (Elem T)) (addrs : List Nat) : List T :=
  addrs.map fun a => (storeGet store a).value

theorem rep_empty (T : Type) : Rep (emptyQueue T) [] := by
  refine ⟨rfl, rfl, List.nodup_nil, rfl⟩

/-! Basic facts about `chainB`. -/

theorem chainB_nil_elim {store : List (Elem T)} {o : Option Nat}
    (h : chainB store o [] = true) : o = none := by
  cases o with
  | none => rfl
  | some a => simp [chainB] at h

theorem chainB_none_elim {store : List (Elem T)} {addrs : List Nat}
    (h : chainB store none addrs = true) : addrs = [] := by
  cases addrs with
  | nil => rfl
  | cons b rest => simp [chainB] at h

theorem chainB_cons_elim {store : List (Elem T)} {o : Option Nat} {b : Nat}
    {rest : List Nat} (h : chainB store o (b :: rest) = true) :
    o = some b ∧ ∃ e, store[b]? = some e ∧ chainB store e.next rest = true := by
  cases o with
  | none => simp [chainB] at h
  | some a =>
    simp only [chainB, Bool.and_eq_true, beq_iff_eq] at h
    obtain ⟨rfl, h⟩ := h
    refine ⟨rfl, ?_⟩
    cases he : store[a]? with
    | none => rw [he] at h; simp at h
    | some e => rw [he] at h; exact ⟨e, rfl, h⟩

theorem chainB_mem_lt {store : List (Elem T)} :
    ∀ (addrs : List Nat) (o : Option Nat), chainB store o addrs = true →
      ∀ b ∈ addrs, b < store.length := by
  intro addrs
  induction addrs with
  | nil => intro o _ b hb; simp at hb
  | cons c rest ih =>
    intro o h b hb
    obtain ⟨rfl, e, he, hrest⟩ := chainB_cons_elim h
    rcases List.mem_cons.mp hb with rfl | hb
    · by_contra hlt
      rw [List.getElem?_eq_none (by omega)] at he
      exact Option.noConfusion he
    · exact ih e.next hrest b hb

theorem chainB_frame {store store' : List (Elem T)} :
    ∀ (addrs : List Nat) (o : Option Nat),
      (∀ a ∈ addrs, store'[a]? = store[a]?) →
      chainB store' o addrs = chainB store o addrs := by
  intro addrs
  induction addrs with
  | nil => intro o _; cases o <;> rfl
  | cons b rest ih =>
    intro o h
    cases o with
    | none => rfl
    | some a =>
      simp only [chainB]
      cases hab : (a == b) with
      | false => simp
      | true =>
        have hb : a = b := by simpa using hab
        subst hb
        rw [h a (List.mem_cons_self _ _)]
        cases store[a]? with
        | none => rfl
        | some e =>
          simp only [Bool.true_and]
          exact ih e.next fun x hx => h x (List.mem_cons_of_mem _ hx)

theorem chainB_extend {store : List (Elem T)} :
    ∀ (l : List Nat) (o : Option Nat) (t p : Nat) (w : T) (ep : Elem T),
      chainB store o (l ++ [t]) = true →
      (l ++ [t]).Nodup →
      p ∉ l ++ [t] →
      store[p]? = some ep → ep.next = none →
      chainB (store.set t ⟨w, some p⟩) o ((l ++ [t]) ++ [p]) = true := by
  intro l
  induction l with
  | nil =>
    intro o t p w ep hchain _ hp hep hnext
    obtain ⟨rfl, e, he, _⟩ := chainB_cons_elim hchain
    have htlt : t < store.length := by
      by_contra hlt
      rw [List.getElem?_eq_none (by omega)] at he
      exact Option.noConfusion he
    have hpt : p ≠ t := by simp at hp; omega
    simp only [List.nil_append, List.cons_append, chainB, beq_self_eq_true,
      Bool.true_and]
    rw [List.getElem?_set_self htlt]
    simp only [chainB, beq_self_eq_true, Bool.true_and]
    rw [List.getElem?_set_ne (by omega), hep]
    show chainB (store.set t ⟨w, some p⟩) ep.next [] = true
    rw [hnext]
    rfl
  | cons b l' ih =>
    intro o t p w ep hchain hnodup hp hep hnext
    obtain ⟨rfl, e, he, hrest⟩ := chainB_cons_elim (by simpa using hchain)
    have hbmem : b ∉ l' ++ [t] := (List.nodup_cons.mp (by simpa using hnodup)).1
    have hbt : b ≠ t := by
      intro hq; exact hbmem (hq ▸ List.mem_append_right _ (List.mem_singleton.mpr rfl))
    have hbp : b ≠ p := by
      intro hq; exact hp (hq ▸ List.mem_cons_self _ _)
    have hgoal : chainB (store.set t ⟨w, some p⟩) e.next ((l' ++ [t]) ++ [p]) = true :=
      ih e.next t p w ep hrest (List.nodup_cons.mp (by simpa using hnodup)).2
        (fun hm => hp (List.mem_cons_of_mem _ (by simpa using hm))) hep hnext
    simp only [List.cons_append, chainB, beq_self_eq_true, Bool.true_and]
    rw [List.getElem?_set_ne (fun hq => hbt hq.symm), he]
    exact hgoal

/-! Behaviour of the queue operations on represented states. -/

theorem poolB_mem {store : List (Elem T)} {pool : List Nat} (h : poolB store pool = true)
    {a : Nat} (ha : a ∈ pool) : ∃ e, store[a]? = some e ∧ e.next = none := by
  have := (List.all_eq_true.mp h) a ha
  cases he : store[a]? with
  | none => rw [he] at this; simp at this
  | some e =>
    rw [he] at this
    refine ⟨e, rfl, ?_⟩
    simpa using this

theorem poolB_of_frame {store store' : List (Elem T)} {pool : List Nat}
    (hfr : ∀ x ∈ pool, store'[x]? = store[x]?) (h : poolB store pool = true) :
    poolB store' pool = true := by
  refine List.all_eq_true.mpr fun a ha => ?_
  rw [hfr a ha]
  exact (List.all_eq_true.mp h) a ha

/-- Core of the enqueue correctness proof, abstracted over how the new node
address `a` was obtained (from the pool, or freshly allocated). -/
theorem enqueue_core [Inhabited T] {q : queue T} {addrs pool' : List Nat}
    {store₁ : List (Elem T)} {a : Nat} {ea : Elem T} (v : T)
    (hchain : chainB q.store q.head addrs = true)
    (htail : q.tail = addrs.getLast?)
    (hnodup : (addrs ++ a :: pool').Nodup)
    (hpoolq : poolB q.store pool' = true)
    (hfr : ∀ x, x ≠ a → store₁[x]? = q.store[x]?)
    (hlen : q.store.length ≤ store₁.length)
    (halloc : store₁[a]? = some ea) (hea : ea.next = none) :
    Rep { head := if q.head = none then some a else q.head, tail := some a,
          pool := pool',
          store :=
            match q.tail with
            | some t =>
              (store₁.set a ⟨v, (storeGet store₁ a).next⟩).set t
                ⟨(storeGet (store₁.set a ⟨v, (storeGet store₁ a).next⟩) t).value, some a⟩
            | none => store₁.set a ⟨v, (storeGet store₁ a).next⟩ }
        (addrs ++ [a]) ∧
      qVals
        (match q.tail with
          | some t =>
            (store₁.set a ⟨v, (storeGet store₁ a).next⟩).set t
              ⟨(storeGet (store₁.set a ⟨v, (storeGet store₁ a).next⟩) t).value, some a⟩
          | none => store₁.set a ⟨v, (storeGet store₁ a).next⟩)
        (addrs ++ [a]) = qVals q.store addrs ++ [v] := by
  have haddrs : a ∉ addrs := by
    intro hmem
    exact (List.disjoint_of_nodup_append hnodup) hmem (List.mem_cons_self _ _)
  have hnodaddrs : addrs.Nodup := hnodup.of_append_left
  have halt : a < store₁.length := by
    by_contra hlt
    rw [List.getElem?_eq_none (by omega)] at halloc
    exact Option.noConfusion halloc
  have hget₁ : storeGet store₁ a = ea := by simp [storeGet, halloc]
  have hset : store₁.set a ⟨v, (storeGet store₁ a).next⟩ = store₁.set a ⟨v, none⟩ := by
    rw [hget₁, hea]
  set store₂ := store₁.set a ⟨v, none⟩ with hstore₂
  have ha₂ : store₂[a]? = some ⟨v, none⟩ := List.getElem?_set_self halt
  have hfr₂ : ∀ x, x ≠ a → store₂[x]? = q.store[x]? := by
    intro x hx
    rw [hstore₂, List.getElem?_set_ne (fun hq => hx hq.symm)]
    exact hfr x hx
  cases htl : q.tail with
  | none =>
    -- The queue was empty: addrs = [] and head is nil.
    rw [htl] at htail
    have haddrnil : addrs = [] := by
      cases addrs with
      | nil => rfl
      | cons b rest =>
        exact absurd (List.getLast?_eq_none_iff.mp htail.symm) (List.cons_ne_nil b rest)
    subst haddrnil
    have hheadnil : q.head = none := chainB_nil_elim hchain
    rw [hset]
    refine ⟨⟨?_, ?_, ?_, ?_⟩, ?_⟩
    · simp only [hheadnil, if_pos rfl, List.nil_append, chainB, beq_self_eq_true,
        Bool.true_and]
      rw [ha₂]
      rfl
    · simp
    · simpa using hnodup
    · refine poolB_of_frame (fun x hx => ?_) hpoolq
      have hxa : x ≠ a := by
        intro hq
        subst hq
        exact ((List.nodup_cons.mp hnodup.of_append_right).1) hx
      exact hfr₂ x hxa
    · simp [qVals, storeGet, ha₂]
  | some t =>
    rw [htl] at htail
    have htmem : t ∈ addrs := by
      rcases List.eq_nil_or_concat addrs with rfl | ⟨l, b, hl⟩
      · simp at htail
      · rw [hl, List.concat_eq_append, List.getLast?_concat] at htail
        rw [hl, List.concat_eq_append]
        have : b = t := by simpa using htail.symm
        subst this
        exact List.mem_append_right _ (List.mem_singleton.mpr rfl)
    have hta : t ≠ a := fun hq => haddrs (hq ▸ htmem)
    obtain ⟨l, hl⟩ : ∃ l, addrs = l ++ [t] := by
      rcases List.eq_nil_or_concat addrs with rfl | ⟨l', b, hlb⟩
      · simp at htail
      · rw [hlb, List.concat_eq_append, List.getLast?_concat] at htail
        have hbt : b = t := by simpa using htail.symm
        exact ⟨l', by rw [hlb, List.concat_eq_append, hbt]⟩
    subst hl
    -- The head pointer is not nil, so the `if` in enqueue keeps it.
    obtain ⟨c, rest, hcr⟩ : ∃ c rest, l ++ [t] = c :: rest := by
      cases hx : l ++ [t] with
      | nil => simp at hx
      | cons c rest => exact ⟨c, rest, rfl⟩
    have hheadsome : q.head = some c := by
      rw [hcr] at hchain
      exact (chainB_cons_elim hchain).1
    have hheadne : ¬(q.head = none) := by rw [hheadsome]; simp
    have htlt : t < q.store.length :=
      chainB_mem_lt _ _ hchain t htmem
    have htlt₂ : t < store₂.length := by
      rw [hstore₂, List.length_set]; omega
    have hchain₂ : chainB store₂ q.head (l ++ [t]) = true := by
      rw [chainB_frame (l ++ [t]) q.head (fun x hx => hfr₂ x (fun hq => haddrs (hq ▸ hx)))]
      exact hchain
    rw [hset]
    have hext := chainB_extend l q.head t a (storeGet store₂ t).value ⟨v, none⟩
      hchain₂ hnodaddrs haddrs ha₂ rfl
    refine ⟨⟨?_, ?_, ?_, ?_⟩, ?_⟩
    · simp only [if_neg hheadne]
      exact hext
    · rw [List.getLast?_concat]
    · have : (l ++ [t]) ++ a :: pool' = ((l ++ [t]) ++ [a]) ++ pool' := by simp
      rw [← this]
      exact hnodup
    · refine poolB_of_frame (fun x hx => ?_) hpoolq
      have hxa : x ≠ a := by
        intro hq
        subst hq
        exact ((List.nodup_cons.mp hnodup.of_append_right).1) hx
      have hxt : x ≠ t := by
        intro hq
        subst hq
        exact (List.disjoint_of_nodup_append hnodup) htmem (List.mem_cons_of_mem _ hx)
      rw [List.getElem?_set_ne (fun hq => hxt hq.symm)]
      exact hfr₂ x hxa
    · -- Values: the tail update keeps t's value, other chain nodes are untouched,
      -- and the new node holds v.
      have hvals : qVals (store₂.set t ⟨(storeGet store₂ t).value, some a⟩) (l ++ [t]) =
          qVals q.store (l ++ [t]) := by
        refine List.map_congr_left fun x hx => ?_
        by_cases hxt : x = t
        · subst hxt
          simp only [storeGet, List.getElem?_set_self htlt₂]
          simp only [Option.getD_some]
          congr 1
          rw [hfr₂ x hta]
        · rw [show storeGet (store₂.set t ⟨(storeGet store₂ t).value, some a⟩) x
              = storeGet store₂ x by
            simp [storeGet, List.getElem?_set_ne (fun hq => hxt hq.symm)]]
          have hxa : x ≠ a := fun hq => haddrs (hq ▸ hx)
          simp [storeGet, hfr₂ x hxa]
      simp only [qVals] at hvals ⊢
      rw [List.map_append, hvals, List.map_append]
      congr 1
      have : storeGet (store₂.set t ⟨(storeGet store₂ t).value, some a⟩) a = ⟨v, none⟩ := by
        simp [storeGet, List.getElem?_set_ne hta, ha₂]
      simp [this]

/-- Enqueue appends the value: the chain gains one fresh node address at the
back and the stored value sequence gains `v` at the back. -/
theorem enqueue_rep [Inhabited T] {q : queue T} {addrs : List Nat} (v : T)
    (h : Rep q addrs) :
    ∃ a, a ∉ addrs ∧ Rep (q.enqueue v) (addrs ++ [a]) ∧
      qVals (q.enqueue v).store (addrs ++ [a]) = qVals q.store addrs ++ [v] := by
  obtain ⟨hchain, htail, hnodup, hpool⟩ := h
  cases hpl : q.pool with
  | cons a rest =>
    rw [hpl] at hnodup hpool
    have hmem : a ∈ a :: rest := List.mem_cons_self a rest
    obtain ⟨ea, hea, heanext⟩ := poolB_mem hpool hmem
    have hpoolrest : poolB q.store rest = true := by
      refine List.all_eq_true.mpr fun x hx => (List.all_eq_true.mp hpool) x ?_
      exact List.mem_cons_of_mem _ hx
    have hcore := @enqueue_core T _ q addrs rest q.store a ea v hchain htail hnodup
      hpoolrest (fun _ _ => rfl) le_rfl hea heanext
    refine ⟨a, ?_, ?_, ?_⟩
    · intro hmem'
      exact (List.disjoint_of_nodup_append hnodup) hmem' (List.mem_cons_self _ _)
    · simp only [queue.enqueue, hpl]
      exact hcore.1
    · simp only [queue.enqueue, hpl]
      exact hcore.2
  | nil =>
    rw [hpl] at hnodup hpool
    have hfresh : (q.store ++ [(⟨default, none⟩ : Elem T)])[q.store.length]? =
        some ⟨default, none⟩ := List.getElem?_concat_length _ _
    have hfr : ∀ x, x ≠ q.store.length →
        (q.store ++ [(⟨default, none⟩ : Elem T)])[x]? = q.store[x]? := by
      intro x hx
      rcases Nat.lt_or_ge x q.store.length with hlt | hge
      · exact List.getElem?_append_left hlt
      · have hgt : q.store.length < x := by omega
        rw [@List.getElem?_eq_none _ q.store x (by omega),
          List.getElem?_eq_none (by simp; omega)]
    have hnodup' : (addrs ++ q.store.length :: ([] : List Nat)).Nodup := by
      have hlen : q.store.length ∉ addrs := by
        intro hmem
        exact absurd (chainB_mem_lt _ _ hchain _ hmem) (by omega)
      simp only [List.append_nil] at hnodup
      refine List.nodup_middle.mpr ?_
      simpa using ⟨hlen, hnodup⟩
    have hcore := @enqueue_core T _ q addrs [] (q.store ++ [⟨default, none⟩])
      q.store.length ⟨default, none⟩ v hchain htail hnodup' rfl hfr (by simp) hfresh rfl
    refine ⟨q.store.length, ?_, ?_, ?_⟩
    · intro hmem
      exact absurd (chainB_mem_lt _ _ hchain _ hmem) (by omega)
    · simp only [queue.enqueue, hpl]
      exact hcore.1
    · simp only [queue.enqueue, hpl]
      exact hcore.2

/-- Dequeue on a represented empty queue: returns the zero value and `false`,
and leaves the queue unchanged. -/
theorem dequeue_nil [Inhabited T] {q : queue T} (h : Rep q []) :
    q.dequeue = ((default, false), q) := by
  obtain ⟨hchain, _, _, _⟩ := h
  have hh : q.head = none := chainB_nil_elim hchain
  simp [queue.dequeue, hh]

/-- Dequeue on a represented non-empty queue: returns the head value and
`true`, unlinks the head node, clears its value and next link, and pushes its
address onto the pool. -/
theorem dequeue_cons [Inhabited T] {q : queue T} {a : Nat} {rest : List Nat}
    (h : Rep q (a :: rest)) :
    q.dequeue.1.1 = (storeGet q.store a).value ∧
    q.dequeue.1.2 = true ∧
    Rep q.dequeue.2 rest ∧
    qVals q.dequeue.2.store rest = qVals q.store rest ∧
    (q.dequeue.2.store)[a]? = some ⟨default, none⟩ ∧
    q.dequeue.2.pool = a :: q.pool := by
  obtain ⟨hchain, htail, hnodup, hpool⟩ := h
  obtain ⟨hh, e, he, hrest⟩ := chainB_cons_elim hchain
  have halt : a < q.store.length := by
    by_contra hlt
    rw [List.getElem?_eq_none (by omega)] at he
    exact Option.noConfusion he
  have hanotrest : a ∉ rest := by
    have := (List.nodup_cons.mp hnodup).1
    intro hmem
    exact this (List.mem_append_left _ hmem)
  have hanotpool : a ∉ q.pool := by
    have := (List.nodup_cons.mp hnodup).1
    intro hmem
    exact this (List.mem_append_right _ hmem)
  have hget : storeGet q.store a = e := by simp [storeGet, he]
  have hfr : ∀ x, x ≠ a → (q.store.set a ⟨default, none⟩)[x]? = q.store[x]? := by
    intro x hx
    exact List.getElem?_set_ne (fun hq => hx hq.symm)
  have hdq : q.dequeue = ((e.value, true),
      { head := e.next, tail := if e.next = none then none else q.tail,
        pool := a :: q.pool, store := q.store.set a ⟨default, none⟩ }) := by
    simp only [queue.dequeue, hh, hget]
  rw [hdq]
  refine ⟨by rw [hget], rfl, ⟨?_, ?_, ?_, ?_⟩, ?_, ?_, rfl⟩
  · -- chain of the new queue
    rw [chainB_frame rest e.next (fun x hx => hfr x (fun hq => hanotrest (hq ▸ hx)))]
    exact hrest
  · -- tail of the new queue
    cases hnext : e.next with
    | none =>
      have : rest = [] := chainB_none_elim (hnext ▸ hrest)
      subst this
      simp
    | some nb =>
      have hrestne : rest ≠ [] := by
        intro hq
        subst hq
        rw [hnext] at hrest
        simp [chainB] at hrest
      rw [if_neg (by simp), htail]
      obtain ⟨l, b, hlb⟩ := (List.eq_nil_or_concat rest).resolve_left hrestne
      rw [hlb, List.concat_eq_append, List.getLast?_concat,
        show a :: (l ++ [b]) = (a :: l) ++ [b] by simp, List.getLast?_concat]
  · -- distinctness
    exact List.nodup_middle.mpr hnodup
  · -- pool nodes have cleared next links
    refine List.all_eq_true.mpr fun x hx => ?_
    rcases List.mem_cons.mp hx with rfl | hx'
    · rw [List.getElem?_set_self halt]
      rfl
    · have hxa : x ≠ a := fun hq => hanotpool (hq ▸ hx')
      rw [hfr x hxa]
      exact (List.all_eq_true.mp hpool) x hx'
  · -- values of the remaining chain are unchanged
    refine List.map_congr_left fun x hx => ?_
    have hxa : x ≠ a := fun hq => hanotrest (hq ▸ hx)
    simp [storeGet, hfr x hxa]
  · exact List.getElem?_set_self halt

/-- Pick on a represented empty queue. -/
theorem pick_nil [Inhabited T] {q : queue T} (h : Rep q []) :
    q.pick = (default, false) := by
  obtain ⟨hchain, _, _, _⟩ := h
  simp [queue.pick, chainB_nil_elim hchain]

/-- Pick on a represented non-empty queue returns the head value without
modifying anything. -/
theorem pick_cons [Inhabited T] {q : queue T} {a : Nat} {rest : List Nat}
    (h : Rep q (a :: rest)) :
    q.pick = ((storeGet q.store a).value, true) := by
  obtain ⟨hchain, _, _, _⟩ := h
  obtain ⟨hh, _, _, _⟩ := chainB_cons_elim hchain
  simp [queue.pick, hh]

/-- Reset drops the whole chain: the result represents the empty sequence. -/
theorem reset_rep {q : queue T} {addrs : List Nat} (h : Rep q addrs) :
    Rep q.reset [] := by
  obtain ⟨_, _, hnodup, hpool⟩ := h
  exact ⟨rfl, rfl, by simpa using hnodup.of_append_right, hpool⟩

theorem qVals_cons [Inhabited T] (store : List (Elem T)) (a : Nat) (rest : List Nat) :
    qVals store (a :: rest) = (storeGet store a).value :: qVals store rest := rfl

theorem rep_head_none_iff {q : queue T} {addrs : List Nat} (h : Rep q addrs) :
    (q.head = none ↔ addrs = []) := by
  obtain ⟨hchain, _, _, _⟩ := h
  constructor
  · intro hh
    exact chainB_none_elim (hh ▸ hchain)
  · intro hh
    subst hh
    exact chainB_nil_elim hchain

theorem rep_tail_none_iff {q : queue T} {addrs : List Nat} (h : Rep q addrs) :
    (q.tail = none ↔ q.head = none) := by
  have hh := rep_head_none_iff h
  obtain ⟨hchain, htail, _, _⟩ := h
  rw [htail, List.getLast?_eq_none_iff, hh]

/-! Sequences of queue operations, for the structural invariant claim. -/

/-- An abstract queue operation (the four methods of `queue[T]`). -/
inductive QOp (T : Type) where
  | enq (v : T)
  | deq
  | pick
  | reset

/-- Apply one operation to the concrete queue (pick does not modify it). -/
def applyOp [Inhabited T] (q : queue T) : QOp T → queue T
  | .enq v => q.enqueue v
  | .deq => q.dequeue.2
  | .pick => q
  | .reset => q.reset

def applyOps [Inhabited T] (q : queue T) (ops : List (QOp T)) : queue T :=
  ops.foldl applyOp q

/-- The specification-level effect of one operation on the stored sequence. -/
def specOp : List T → QOp T → List T
  | l, .enq v => l ++ [v]
  | l, .deq => l.tail
  | l, .pick => l
  | _, .reset => []

def specOps (l : List T) (ops : List (QOp T)) : List T :=
  ops.foldl specOp l

theorem applyOps_rep [Inhabited T] :
    ∀ (ops : List (QOp T)) (q : queue T) (addrs : List Nat),
      Rep q addrs →
      ∃ addrs', Rep (applyOps q ops) addrs' ∧
        qVals (applyOps q ops).store addrs' = specOps (qVals q.store addrs) ops := by
  intro ops
  induction ops with
  | nil => intro q addrs h; exact ⟨addrs, h, rfl⟩
  | cons op rest ih =>
    intro q addrs h
    cases op with
    | enq v =>
      obtain ⟨a, _, hrep, hvals⟩ := enqueue_rep v h
      obtain ⟨addrs', hrep', hvals'⟩ := ih _ _ hrep
      refine ⟨addrs', hrep', ?_⟩
      show qVals (applyOps (q.enqueue v) rest).store addrs'
        = specOps (qVals q.store addrs ++ [v]) rest
      rw [hvals', hvals]
    | deq =>
      cases addrs with
      | nil =>
        have hdq := dequeue_nil h
        obtain ⟨addrs', hrep', hvals'⟩ := ih q [] h
        refine ⟨addrs', ?_, ?_⟩
        · show Rep (applyOps q.dequeue.2 rest) addrs'
          rw [hdq]
          exact hrep'
        · show qVals (applyOps q.dequeue.2 rest).store addrs'
            = specOps (qVals q.store []).tail rest
          rw [hdq]
          exact hvals'
      | cons a rest' =>
        have hdq := dequeue_cons h
        obtain ⟨addrs', hrep', hvals'⟩ := ih _ _ hdq.2.2.1
        refine ⟨addrs', hrep', ?_⟩
        show qVals (applyOps q.dequeue.2 rest).store addrs'
          = specOps (qVals q.store (a :: rest')).tail rest
        rw [hvals', hdq.2.2.2.1, qVals_cons]
        rfl
    | pick =>
      obtain ⟨addrs', hrep', hvals'⟩ := ih q addrs h
      exact ⟨addrs', hrep', hvals'⟩
    | reset =>
      have hrep := reset_rep h
      obtain ⟨addrs', hrep', hvals'⟩ := ih _ _ hrep
      refine ⟨addrs', hrep', ?_⟩
      show qVals (applyOps q.reset rest).store addrs'
        = specOps ([] : List T) rest
      rw [hvals']
      rfl

/-- Claim C6: every queue operation (enqueue, dequeue, pick, reset) preserves
the structural invariant: starting from the zero-valued queue, after any
sequence of operations the queue is represented by a duplicate-free chain of
node addresses whose traversal yields exactly the abstract FIFO contents (in
enqueue order), the head is nil iff the queue holds no values, and the tail is
nil iff the head is nil. -/
theorem queue_ops_invariant [Inhabited T] (ops : List (QOp T)) :
    ∃ addrs, Rep (applyOps (emptyQueue T) ops) addrs ∧
      qVals (applyOps (emptyQueue T) ops).store addrs = specOps [] ops ∧
      ((applyOps (emptyQueue T) ops).head = none ↔ specOps [] ops = []) ∧
      ((applyOps (emptyQueue T) ops).tail = none ↔
        (applyOps (emptyQueue T) ops).head = none) := by
  obtain ⟨addrs, hrep, hvals⟩ := applyOps_rep ops (emptyQueue T) [] (rep_empty T)
  have hvals' : qVals (applyOps (emptyQueue T) ops).store addrs = specOps [] ops := hvals
  refine ⟨addrs, hrep, hvals', ?_, rep_tail_none_iff hrep⟩
  rw [rep_head_none_iff hrep, ← hvals']
  simp [qVals]

/-- Claim C5: on a represented queue state, dequeue on an empty queue returns
the zero value with found=false and leaves the queue unchanged (hence empty);
dequeue on a non-empty queue removes and returns the head value with
found=true, and the removed node has its value set to the zero value and its
next link cleared before being placed at the front of the pool. -/
theorem dequeue_spec [Inhabited T] (q : queue T) (addrs : List Nat) (h : Rep q addrs) :
    (addrs = [] → q.dequeue = ((default, false), q)) ∧
    (∀ a rest, addrs = a :: rest →
      q.dequeue.1.1 = (storeGet q.store a).value ∧
      q.dequeue.1.2 = true ∧
      Rep q.dequeue.2 rest ∧
      qVals q.dequeue.2.store rest = qVals q.store rest ∧
      (q.dequeue.2.store)[a]? = some ⟨default, none⟩ ∧
      q.dequeue.2.pool = a :: q.pool) := by
  constructor
  · intro h0
    subst h0
    exact dequeue_nil h
  · intro a rest hcons
    subst hcons
    exact dequeue_cons h

theorem dequeue_spec_witness :
    Rep ((emptyQueue Nat).enqueue 7) [0] ∧
    ((emptyQueue Nat).enqueue 7).dequeue.1.1 = 7 ∧
    ((emptyQueue Nat).enqueue 7).dequeue.1.2 = true ∧
    ((emptyQueue Nat).enqueue 7).dequeue.2.pool = [0] := by
  have h := (dequeue_spec ((emptyQueue Nat).enqueue 7) [0] (by decide)).2 0 [] rfl
  refine ⟨by decide, ?_, h.2.1, h.2.2.2.2.2⟩
  rw [h.1]
  decide

/-! The multiplexer worker loop (`run` from the current implementation).

The two channel endpoints are modelled by their observable content: `inputs`
is the list of values the producer sends to the input channel before closing
it (a receive on the input channel yields the next value of `inputs`, or the
closed signal once `inputs` is exhausted), and the returned event list is
what the worker does to the output channel: `Ev.val v` for each value sent,
terminated by `Ev.closed` for the deferred `close(out)`.  Whenever the loop
reaches the point where both a send and a receive are possible (the
non-blocking send, non-blocking receive, and two-way select at the bottom of
the loop), the environment decides which operation completes; `sched`
resolves this nondeterminism (`true` = the send completes first, `false` =
the receive completes first; an exhausted schedule behaves as `false`).
Recursion is bounded by `fuel`; `none` means the fuel ran out. -/

/-- One observable action on the output channel. -/
inductive Ev (T : Type) where
  | val (v : T)
  | closed
deriving DecidableEq

/-- The worker loop `run(in, out, sendAllOnClose)`.  The state arguments
mirror the Go locals: the queue `q`, `inValue`, `inOpen`, `inReceived`,
`outValue`, `outOK`. -/
def run [Inhabited T] (sendAllOnClose : Bool) :
    Nat → queue T → T → Bool → Bool → T → Bool → List T → List Bool →
      Option (List (Ev T))
  | 0, _, _, _, _, _, _, _, _ => none
  | fuel + 1, q0, inValue0, inOpen, inReceived, outValue0, outOK0, inputs, sched =>
    -- Integrate the input event received in the previous iteration.
    let q1 := if inReceived && inOpen && outOK0 then q0.enqueue inValue0 else q0
    let outValue1 := if inReceived && inOpen && !outOK0 then inValue0 else outValue0
    let outOK1 := if inReceived && inOpen then true else outOK0
    let inValue1 : T := if inReceived && inOpen then default else inValue0
    -- Refill the pending output value from the queue if it is not set.
    let q2 := if outOK1 then q1 else (q1.dequeue).2
    let outValue2 := if outOK1 then outValue1 else ((q1.dequeue).1).1
    let outOK2 := if outOK1 then true else ((q1.dequeue).1).2
    if !inOpen then
      if !outOK2 then some [Ev.closed]
      else if !sendAllOnClose then some [Ev.closed]
      else
        -- out <- outValue (blocking); then loop.
        Option.map (fun tr => Ev.val outValue2 :: tr)
          (run sendAllOnClose fuel q2 inValue1 false false outValue2 false inputs sched)
    else if !outOK2 then
      -- inValue, inOpen = <-in (blocking).
      match inputs with
      | v :: rest => run sendAllOnClose fuel q2 v true true outValue2 false rest sched
      | [] => run sendAllOnClose fuel q2 default false true outValue2 false [] sched
    else
      -- Both a send and a receive are possible; the schedule decides.
      match sched with
      | true :: s =>
        Option.map (fun tr => Ev.val outValue2 :: tr)
          (run sendAllOnClose fuel q2 inValue1 true false default false inputs s)
      | false :: s =>
        match inputs with
        | v :: rest => run sendAllOnClose fuel q2 v true true outValue2 true rest s
        | [] => run sendAllOnClose fuel q2 default false true outValue2 true [] s
      | [] =>
        match inputs with
        | v :: rest => run sendAllOnClose fuel q2 v true true outValue2 true rest []
        | [] => run sendAllOnClose fuel q2 default false true outValue2 true [] []

/-- The worker as started by `New`: fresh queue, zero-valued locals, input
channel open, nothing received, no pending output value. -/
def runFromStart [Inhabited T] (sendAllOnClose : Bool) (fuel : Nat)
    (inputs : List T) (sched : List Bool) : Option (List (Ev T)) :=
  run sendAllOnClose fuel (emptyQueue T) default true false default false inputs sched

example : runFromStart true 9 [1, 2] [] = some [Ev.val 1, Ev.val 2, Ev.closed] := by decide

example : runFromStart false 9 [1, 2] [] = some [Ev.closed] := by decide

example : runFromStart false 9 [1, 2] [false, true] = some [Ev.val 1, Ev.closed] := by decide

/-- The values that are still on their way to the output channel, in order:
the pending output slot, then the queue contents, then a received but not yet
integrated input value, then (while the input channel is open) the values the
producer has yet to deliver. -/
def pendingOf [Inhabited T] (vals : List T) (inValue : T) (inOpen inReceived : Bool)
    (outValue : T) (outOK : Bool) (inputs : List T) : List T :=
  (if outOK then [outValue] else []) ++ vals ++
    (if inReceived && inOpen then [inValue] else []) ++
    (if inOpen then inputs else [])

/-- Fuel bound: an upper bound on the number of loop iterations left. -/
def runMeasure (addrs : List Nat) (io ir ok : Bool) (numInputs : Nat) : Nat :=
  2 * numInputs + addrs.length + (if ok then 1 else 0) +
    (if ir then 1 else 0) + (if io then 2 else 0) + 1

theorem run_sendAll_master [Inhabited T] :
    ∀ (fuel : Nat) (q : queue T) (addrs : List Nat) (iv : T) (io ir : Bool)
      (ov : T) (ok : Bool) (inputs : List T) (sched : List Bool),
      Rep q addrs →
      (ir = true → io = true → ok = false → addrs = []) →
      runMeasure addrs io ir ok inputs.length ≤ fuel →
      run true fuel q iv io ir ov ok inputs sched =
        some ((pendingOf (qVals q.store addrs) iv io ir ov ok inputs).map Ev.val
          ++ [Ev.closed]) := by
  intro fuel
  induction fuel with
  | zero =>
    intro q addrs iv io ir ov ok inputs sched _ _ hm
    exfalso
    have h1 : 1 ≤ runMeasure addrs io ir ok inputs.length :=
      Nat.succ_le_succ (Nat.zero_le _)
    omega
  | succ fuel ih =>
    intro q addrs iv io ir ov ok inputs sched hrep hinv hm
    cases ir with
    | false => cases io with
      | false => cases ok with
        | false =>
          -- A: idle state, input closed, no pending value: flush the queue.
          cases addrs with
          | nil =>
            simp only [run, Bool.false_and, Bool.and_false, Bool.true_and, Bool.and_true,
              Bool.and_self, Bool.not_false, Bool.not_true, Bool.false_eq_true,
              Bool.true_eq_false, eq_self_iff_true, if_true, if_false, ite_true, ite_false]
            rw [dequeue_nil hrep]
            simp [pendingOf, qVals]
          | cons a rest =>
            have hdq := dequeue_cons hrep
            simp only [run, Bool.false_and, Bool.and_false, Bool.true_and, Bool.and_true,
              Bool.and_self, Bool.not_false, Bool.not_true, Bool.false_eq_true,
              Bool.true_eq_false, eq_self_iff_true, if_true, if_false, ite_true, ite_false]
            rw [hdq.2.1]
            simp only [Bool.not_true, Bool.false_eq_true, if_false, ite_false]
            rw [ih q.dequeue.2 rest iv false false q.dequeue.1.1 false inputs sched
              hdq.2.2.1 (by simp) (by simp [runMeasure] at hm ⊢; omega)]
            simp [pendingOf, qVals_cons, hdq.1, hdq.2.2.2.1]
        | true =>
          -- B: input closed, pending value set: flush it.
          simp only [run, Bool.false_and, Bool.and_false, Bool.true_and, Bool.and_true,
            Bool.and_self, Bool.not_false, Bool.not_true, Bool.false_eq_true,
            Bool.true_eq_false, eq_self_iff_true, if_true, if_false, ite_true, ite_false]
          rw [ih q addrs iv false false ov false inputs sched hrep (by simp)
            (by simp [runMeasure] at hm ⊢; omega)]
          simp [pendingOf]
      | true => cases ok with
        | false =>
          -- C: input open, no pending value: refill, then receive or schedule.
          cases addrs with
          | nil =>
            cases inputs with
            | nil =>
              simp only [run, Bool.false_and, Bool.and_false, Bool.true_and, Bool.and_true,
                Bool.and_self, Bool.not_false, Bool.not_true, Bool.false_eq_true,
                Bool.true_eq_false, eq_self_iff_true, if_true, if_false, ite_true, ite_false]
              rw [dequeue_nil hrep]
              simp only []
              rw [ih q [] default false true default false [] sched hrep (by simp)
                (by simp [runMeasure] at hm ⊢; omega)]
              simp [pendingOf]
            | cons v rest =>
              simp only [run, Bool.false_and, Bool.and_false, Bool.true_and, Bool.and_true,
                Bool.and_self, Bool.not_false, Bool.not_true, Bool.false_eq_true,
                Bool.true_eq_false, eq_self_iff_true, if_true, if_false, ite_true, ite_false]
              rw [dequeue_nil hrep]
              simp only []
              rw [ih q [] v true true default false rest sched hrep (fun _ _ _ => rfl)
                (by simp [runMeasure] at hm ⊢; omega)]
              simp [pendingOf]
          | cons a rest =>
            have hdq := dequeue_cons hrep
            cases sched with
            | nil =>
              cases inputs with
              | nil =>
                simp only [run, Bool.false_and, Bool.and_false, Bool.true_and, Bool.and_true,
                  Bool.and_self, Bool.not_false, Bool.not_true, Bool.false_eq_true,
                  Bool.true_eq_false, eq_self_iff_true, if_true, if_false, ite_true, ite_false]
                rw [hdq.2.1]
                simp only [Bool.not_true, Bool.false_eq_true, if_false, ite_false]
                rw [ih q.dequeue.2 rest default false true q.dequeue.1.1 true [] []
                  hdq.2.2.1 (by simp) (by simp [runMeasure] at hm ⊢; omega)]
                simp [pendingOf, qVals_cons, hdq.1, hdq.2.2.2.1]
              | cons v rest' =>
                simp only [run, Bool.false_and, Bool.and_false, Bool.true_and, Bool.and_true,
                  Bool.and_self, Bool.not_false, Bool.not_true, Bool.false_eq_true,
                  Bool.true_eq_false, eq_self_iff_true, if_true, if_false, ite_true, ite_false]
                rw [hdq.2.1]
                simp only [Bool.not_true, Bool.false_eq_true, if_false, ite_false]
                rw [ih q.dequeue.2 rest v true true q.dequeue.1.1 true rest' []
                  hdq.2.2.1 (by simp) (by simp [runMeasure] at hm ⊢; omega)]
                simp [pendingOf, qVals_cons, hdq.1, hdq.2.2.2.1]
            | cons b s =>
              cases b with
              | true =>
                simp only [run, Bool.false_and, Bool.and_false, Bool.true_and, Bool.and_true,
                  Bool.and_self, Bool.not_false, Bool.not_true, Bool.false_eq_true,
                  Bool.true_eq_false, eq_self_iff_true, if_true, if_false, ite_true, ite_false]
                rw [hdq.2.1]
                simp only [Bool.not_true, Bool.false_eq_true, if_false, ite_false]
                rw [ih q.dequeue.2 rest iv true false default false inputs s
                  hdq.2.2.1 (by simp) (by simp [runMeasure] at hm ⊢; omega)]
                simp [pendingOf, qVals_cons, hdq.1, hdq.2.2.2.1]
              | false =>
                cases inputs with
                | nil =>
                  simp only [run, Bool.false_and, Bool.and_false, Bool.true_and, Bool.and_true,
                    Bool.and_self, Bool.not_false, Bool.not_true, Bool.false_eq_true,
                    Bool.true_eq_false, eq_self_iff_true, if_true, if_false, ite_true, ite_false]
                  rw [hdq.2.1]
                  simp only [Bool.not_true, Bool.false_eq_true, if_false, ite_false]
                  rw [ih q.dequeue.2 rest default false true q.dequeue.1.1 true [] s
                    hdq.2.2.1 (by simp) (by simp [runMeasure] at hm ⊢; omega)]
                  simp [pendingOf, qVals_cons, hdq.1, hdq.2.2.2.1]
                | cons v rest' =>
                  simp only [run, Bool.false_and, Bool.and_false, Bool.true_and, Bool.and_true,
                    Bool.and_self, Bool.not_false, Bool.not_true, Bool.false_eq_true,
                    Bool.true_eq_false, eq_self_iff_true, if_true, if_false, ite_true, ite_false]
                  rw [hdq.2.1]
                  simp only [Bool.not_true, Bool.false_eq_true, if_false, ite_false]
                  rw [ih q.dequeue.2 rest v true true q.dequeue.1.1 true rest' s
                    hdq.2.2.1 (by simp) (by simp [runMeasure] at hm ⊢; omega)]
                  simp [pendingOf, qVals_cons, hdq.1, hdq.2.2.2.1]
        | true =>
          -- D: input open, pending value set, nothing just received.
          cases sched with
          | nil =>
            cases inputs with
            | nil =>
              simp only [run, Bool.false_and, Bool.and_false, Bool.true_and, Bool.and_true,
                Bool.and_self, Bool.not_false, Bool.not_true, Bool.false_eq_true,
                Bool.true_eq_false, eq_self_iff_true, if_true, if_false, ite_true, ite_false]
              rw [ih q addrs default false true ov true [] [] hrep (by simp)
                (by simp [runMeasure] at hm ⊢; omega)]
              simp [pendingOf]
            | cons v rest' =>
              simp only [run, Bool.false_and, Bool.and_false, Bool.true_and, Bool.and_true,
                Bool.and_self, Bool.not_false, Bool.not_true, Bool.false_eq_true,
                Bool.true_eq_false, eq_self_iff_true, if_true, if_false, ite_true, ite_false]
              rw [ih q addrs v true true ov true rest' [] hrep (by simp)
                (by simp [runMeasure] at hm ⊢; omega)]
              simp [pendingOf]
          | cons b s =>
            cases b with
            | true =>
              simp only [run, Bool.false_and, Bool.and_false, Bool.true_and, Bool.and_true,
                Bool.and_self, Bool.not_false, Bool.not_true, Bool.false_eq_true,
                Bool.true_eq_false, eq_self_iff_true, if_true, if_false, ite_true, ite_false]
              rw [ih q addrs iv true false default false inputs s hrep (by simp)
                (by simp [runMeasure] at hm ⊢; omega)]
              simp [pendingOf]
            | false =>
              cases inputs with
              | nil =>
                simp only [run, Bool.false_and, Bool.and_false, Bool.true_and, Bool.and_true,
                  Bool.and_self, Bool.not_false, Bool.not_true, Bool.false_eq_true,
                  Bool.true_eq_false, eq_self_iff_true, if_true, if_false, ite_true, ite_false]
                rw [ih q addrs default false true ov true [] s hrep (by simp)
                  (by simp [runMeasure] at hm ⊢; omega)]
                simp [pendingOf]
              | cons v rest' =>
                simp only [run, Bool.false_and, Bool.and_false, Bool.true_and, Bool.and_true,
                  Bool.and_self, Bool.not_false, Bool.not_true, Bool.false_eq_true,
                  Bool.true_eq_false, eq_self_iff_true, if_true, if_false, ite_true, ite_false]
                rw [ih q addrs v true true ov true rest' s hrep (by simp)
                  (by simp [runMeasure] at hm ⊢; omega)]
                simp [pendingOf]
    | true => cases io with
      | false => cases ok with
        | false =>
          -- E: like A (a received close is not integrated when input closed).
          cases addrs with
          | nil =>
            simp only [run, Bool.false_and, Bool.and_false, Bool.true_and, Bool.and_true,
              Bool.and_self, Bool.not_false, Bool.not_true, Bool.false_eq_true,
              Bool.true_eq_false, eq_self_iff_true, if_true, if_false, ite_true, ite_false]
            rw [dequeue_nil hrep]
            simp [pendingOf, qVals]
          | cons a rest =>
            have hdq := dequeue_cons hrep
            simp only [run, Bool.false_and, Bool.and_false, Bool.true_and, Bool.and_true,
              Bool.and_self, Bool.not_false, Bool.not_true, Bool.false_eq_true,
              Bool.true_eq_false, eq_self_iff_true, if_true, if_false, ite_true, ite_false]
            rw [hdq.2.1]
            simp only [Bool.not_true, Bool.false_eq_true, if_false, ite_false]
            rw [ih q.dequeue.2 rest iv false false q.dequeue.1.1 false inputs sched
              hdq.2.2.1 (by simp) (by simp [runMeasure] at hm ⊢; omega)]
            simp [pendingOf, qVals_cons, hdq.1, hdq.2.2.2.1]
        | true =>
          -- F: like B.
          simp only [run, Bool.false_and, Bool.and_false, Bool.true_and, Bool.and_true,
            Bool.and_self, Bool.not_false, Bool.not_true, Bool.false_eq_true,
            Bool.true_eq_false, eq_self_iff_true, if_true, if_false, ite_true, ite_false]
          rw [ih q addrs iv false false ov false inputs sched hrep (by simp)
            (by simp [runMeasure] at hm ⊢; omega)]
          simp [pendingOf]
      | true => cases ok with
        | false =>
          -- G: integrate the received value into the empty pending slot.
          have haddr : addrs = [] := hinv rfl rfl rfl
          subst haddr
          cases sched with
          | nil =>
            cases inputs with
            | nil =>
              simp only [run, Bool.false_and, Bool.and_false, Bool.true_and, Bool.and_true,
                Bool.and_self, Bool.not_false, Bool.not_true, Bool.false_eq_true,
                Bool.true_eq_false, eq_self_iff_true, if_true, if_false, ite_true, ite_false]
              rw [ih q [] default false true iv true [] [] hrep (by simp)
                (by simp [runMeasure] at hm ⊢; omega)]
              simp [pendingOf, qVals]
            | cons v rest' =>
              simp only [run, Bool.false_and, Bool.and_false, Bool.true_and, Bool.and_true,
                Bool.and_self, Bool.not_false, Bool.not_true, Bool.false_eq_true,
                Bool.true_eq_false, eq_self_iff_true, if_true, if_false, ite_true, ite_false]
              rw [ih q [] v true true iv true rest' [] hrep (by simp)
                (by simp [runMeasure] at hm ⊢; omega)]
              simp [pendingOf, qVals]
          | cons b s =>
            cases b with
            | true =>
              simp only [run, Bool.false_and, Bool.and_false, Bool.true_and, Bool.and_true,
                Bool.and_self, Bool.not_false, Bool.not_true, Bool.false_eq_true,
                Bool.true_eq_false, eq_self_iff_true, if_true, if_false, ite_true, ite_false]
              rw [ih q [] default true false default false inputs s hrep (by simp)
                (by simp [runMeasure] at hm ⊢; omega)]
              simp [pendingOf, qVals]
            | false =>
              cases inputs with
              | nil =>
                simp only [run, Bool.false_and, Bool.and_false, Bool.true_and, Bool.and_true,
                  Bool.and_self, Bool.not_false, Bool.not_true, Bool.false_eq_true,
                  Bool.true_eq_false, eq_self_iff_true, if_true, if_false, ite_true, ite_false]
                rw [ih q [] default false true iv true [] s hrep (by simp)
                  (by simp [runMeasure] at hm ⊢; omega)]
                simp [pendingOf, qVals]
              | cons v rest' =>
                simp only [run, Bool.false_and, Bool.and_false, Bool.true_and, Bool.and_true,
                  Bool.and_self, Bool.not_false, Bool.not_true, Bool.false_eq_true,
                  Bool.true_eq_false, eq_self_iff_true, if_true, if_false, ite_true, ite_false]
                rw [ih q [] v true true iv true rest' s hrep (by simp)
                  (by simp [runMeasure] at hm ⊢; omega)]
                simp [pendingOf, qVals]
        | true =>
          -- H: integrate the received value into the queue.
          obtain ⟨a, ha, hrepE, hvalsE⟩ := enqueue_rep iv hrep
          cases sched with
          | nil =>
            cases inputs with
            | nil =>
              simp only [run, Bool.false_and, Bool.and_false, Bool.true_and, Bool.and_true,
                Bool.and_self, Bool.not_false, Bool.not_true, Bool.false_eq_true,
                Bool.true_eq_false, eq_self_iff_true, if_true, if_false, ite_true, ite_false]
              rw [ih (q.enqueue iv) (addrs ++ [a]) default false true ov true [] []
                hrepE (by simp) (by simp [runMeasure] at hm ⊢; omega)]
              simp [pendingOf, hvalsE]
            | cons v rest' =>
              simp only [run, Bool.false_and, Bool.and_false, Bool.true_and, Bool.and_true,
                Bool.and_self, Bool.not_false, Bool.not_true, Bool.false_eq_true,
                Bool.true_eq_false, eq_self_iff_true, if_true, if_false, ite_true, ite_false]
              rw [ih (q.enqueue iv) (addrs ++ [a]) v true true ov true rest' []
                hrepE (by simp) (by simp [runMeasure] at hm ⊢; omega)]
              simp [pendingOf, hvalsE]
          | cons b s =>
            cases b with
            | true =>
              simp only [run, Bool.false_and, Bool.and_false, Bool.true_and, Bool.and_true,
                Bool.and_self, Bool.not_false, Bool.not_true, Bool.false_eq_true,
                Bool.true_eq_false, eq_self_iff_true, if_true, if_false, ite_true, ite_false]
              rw [ih (q.enqueue iv) (addrs ++ [a]) default true false default false inputs s
                hrepE (by simp) (by simp [runMeasure] at hm ⊢; omega)]
              simp [pendingOf, hvalsE]
            | false =>
              cases inputs with
              | nil =>
                simp only [run, Bool.false_and, Bool.and_false, Bool.true_and, Bool.and_true,
                  Bool.and_self, Bool.not_false, Bool.not_true, Bool.false_eq_true,
                  Bool.true_eq_false, eq_self_iff_true, if_true, if_false, ite_true, ite_false]
                rw [ih (q.enqueue iv) (addrs ++ [a]) default false true ov true [] s
                  hrepE (by simp) (by simp [runMeasure] at hm ⊢; omega)]
                simp [pendingOf, hvalsE]
              | cons v rest' =>
                simp only [run, Bool.false_and, Bool.and_false, Bool.true_and, Bool.and_true,
                  Bool.and_self, Bool.not_false, Bool.not_true, Bool.false_eq_true,
                  Bool.true_eq_false, eq_self_iff_true, if_true, if_false, ite_true, ite_false]
                rw [ih (q.enqueue iv) (addrs ++ [a]) v true true ov true rest' s
                  hrepE (by simp) (by simp [runMeasure] at hm ⊢; omega)]
                simp [pendingOf, hvalsE]

/-- Claim C1: with flush-on-close=true, for every finite sequence of values
sent to the input channel before it is closed and every resolution of the
select nondeterminism, the worker delivers exactly those values to the output
channel in order and then closes it: no loss, no duplication, no reordering
across the bypass slot, the queue path and the flush path. -/
theorem run_sendAll_fifo [Inhabited T] (inputs : List T) (sched : List Bool) (fuel : Nat)
    (hfuel : 2 * inputs.length + 3 <= fuel) :
    runFromStart true fuel inputs sched = some (inputs.map Ev.val ++ [Ev.closed]) := by
  have h := run_sendAll_master fuel (emptyQueue T) [] default true false default false
    inputs sched (rep_empty T) (by simp) (by simp [runMeasure]; omega)
  simpa [runFromStart, pendingOf, qVals] using h

theorem run_sendAll_fifo_witness :
    2 * ([3, 1, 2] : List Nat).length + 3 <= 9 ∧
    runFromStart true 9 ([3, 1, 2] : List Nat) [] =
      some [Ev.val 3, Ev.val 1, Ev.val 2, Ev.closed] :=
  ⟨by decide, run_sendAll_fifo [3, 1, 2] [] 9 (by decide)⟩

/-- Claim C3: closing the input channel after zero values immediately closes
the output channel with zero values sent, under either flush policy. -/
theorem run_empty_close [Inhabited T] (sendAllOnClose : Bool) (sched : List Bool)
    (fuel : Nat) (hfuel : 2 <= fuel) :
    runFromStart sendAllOnClose fuel ([] : List T) sched = some [Ev.closed] := by
  obtain ⟨f, rfl⟩ : ∃ f, fuel = f + 2 := ⟨fuel - 2, by omega⟩
  rfl

theorem run_empty_close_witness :
    2 <= 2 ∧ runFromStart false 2 ([] : List Nat) [] = some [Ev.closed] :=
  ⟨by decide, run_empty_close false [] 2 (by decide)⟩

theorem run_noSendAll_master [Inhabited T] :
    ∀ (fuel : Nat) (q : queue T) (addrs : List Nat) (iv : T) (io ir : Bool)
      (ov : T) (ok : Bool) (inputs : List T) (sched : List Bool),
      Rep q addrs →
      (ir = true → io = true → ok = false → addrs = []) →
      runMeasure addrs io ir ok inputs.length ≤ fuel →
      ∃ k, run false fuel q iv io ir ov ok inputs sched =
          some (((pendingOf (qVals q.store addrs) iv io ir ov ok inputs).take k).map Ev.val
            ++ [Ev.closed]) := by
  intro fuel
  induction fuel with
  | zero =>
    intro q addrs iv io ir ov ok inputs sched _ _ hm
    exfalso
    have h1 : 1 ≤ runMeasure addrs io ir ok inputs.length :=
      Nat.succ_le_succ (Nat.zero_le _)
    omega
  | succ fuel ih =>
    intro q addrs iv io ir ov ok inputs sched hrep hinv hm
    cases io with
    | false =>
      -- Input closed: with sendAllOnClose=false the worker returns at once.
      refine ⟨0, ?_⟩
      cases ir <;> cases ok <;>
        simp [run, Bool.false_and, Bool.and_false, Bool.true_and, Bool.and_true,
          Bool.and_self, Bool.not_false, Bool.not_true, Bool.false_eq_true,
          Bool.true_eq_false, eq_self_iff_true, if_true, if_false, ite_true, ite_false,
          ite_self, pendingOf]
    | true =>
      cases ir with
      | false =>
        cases ok with
        | false =>
          cases addrs with
          | nil =>
            cases inputs with
            | nil =>
              obtain ⟨k, hk⟩ := ih q [] default false true default false [] sched hrep
                (by simp) (by simp [runMeasure] at hm ⊢; omega)
              refine ⟨k, ?_⟩
              simp only [run, Bool.false_and, Bool.and_false, Bool.true_and, Bool.and_true,
                Bool.and_self, Bool.not_false, Bool.not_true, Bool.false_eq_true,
                Bool.true_eq_false, eq_self_iff_true, if_true, if_false, ite_true, ite_false]
              rw [dequeue_nil hrep]
              simp only []
              rw [hk]
              simp [pendingOf]
            | cons v rest =>
              obtain ⟨k, hk⟩ := ih q [] v true true default false rest sched hrep
                (fun _ _ _ => rfl) (by simp [runMeasure] at hm ⊢; omega)
              refine ⟨k, ?_⟩
              simp only [run, Bool.false_and, Bool.and_false, Bool.true_and, Bool.and_true,
                Bool.and_self, Bool.not_false, Bool.not_true, Bool.false_eq_true,
                Bool.true_eq_false, eq_self_iff_true, if_true, if_false, ite_true, ite_false]
              rw [dequeue_nil hrep]
              simp only []
              rw [hk]
              simp [pendingOf, qVals]
          | cons a rest =>
            have hdq := dequeue_cons hrep
            cases sched with
            | nil =>
              cases inputs with
              | nil =>
                obtain ⟨k, hk⟩ := ih q.dequeue.2 rest default false true q.dequeue.1.1 true
                  [] [] hdq.2.2.1 (by simp) (by simp [runMeasure] at hm ⊢; omega)
                refine ⟨k, ?_⟩
                simp only [run, Bool.false_and, Bool.and_false, Bool.true_and, Bool.and_true,
                  Bool.and_self, Bool.not_false, Bool.not_true, Bool.false_eq_true,
                  Bool.true_eq_false, eq_self_iff_true, if_true, if_false, ite_true, ite_false]
                rw [hdq.2.1]
                simp only [Bool.not_true, Bool.false_eq_true, if_false, ite_false]
                rw [hk]
                simp [pendingOf, qVals_cons, hdq.1, hdq.2.2.2.1]
              | cons v rest' =>
                obtain ⟨k, hk⟩ := ih q.dequeue.2 rest v true true q.dequeue.1.1 true
                  rest' [] hdq.2.2.1 (by simp) (by simp [runMeasure] at hm ⊢; omega)
                refine ⟨k, ?_⟩
                simp only [run, Bool.false_and, Bool.and_false, Bool.true_and, Bool.and_true,
                  Bool.and_self, Bool.not_false, Bool.not_true, Bool.false_eq_true,
                  Bool.true_eq_false, eq_self_iff_true, if_true, if_false, ite_true, ite_false]
                rw [hdq.2.1]
                simp only [Bool.not_true, Bool.false_eq_true, if_false, ite_false]
                rw [hk]
                simp [pendingOf, qVals_cons, hdq.1, hdq.2.2.2.1]
            | cons b s =>
              cases b with
              | true =>
                obtain ⟨k, hk⟩ := ih q.dequeue.2 rest iv true false default false inputs s
                  hdq.2.2.1 (by simp) (by simp [runMeasure] at hm ⊢; omega)
                refine ⟨k + 1, ?_⟩
                simp only [run, Bool.false_and, Bool.and_false, Bool.true_and, Bool.and_true,
                  Bool.and_self, Bool.not_false, Bool.not_true, Bool.false_eq_true,
                  Bool.true_eq_false, eq_self_iff_true, if_true, if_false, ite_true, ite_false]
                rw [hdq.2.1]
                simp only [Bool.not_true, Bool.false_eq_true, if_false, ite_false]
                rw [hk]
                simp [pendingOf, qVals_cons, hdq.1, hdq.2.2.2.1, List.take_succ_cons]
              | false =>
                cases inputs with
                | nil =>
                  obtain ⟨k, hk⟩ := ih q.dequeue.2 rest default false true q.dequeue.1.1 true
                    [] s hdq.2.2.1 (by simp) (by simp [runMeasure] at hm ⊢; omega)
                  refine ⟨k, ?_⟩
                  simp only [run, Bool.false_and, Bool.and_false, Bool.true_and, Bool.and_true,
                    Bool.and_self, Bool.not_false, Bool.not_true, Bool.false_eq_true,
                    Bool.true_eq_false, eq_self_iff_true, if_true, if_false, ite_true, ite_false]
                  rw [hdq.2.1]
                  simp only [Bool.not_true, Bool.false_eq_true, if_false, ite_false]
                  rw [hk]
                  simp [pendingOf, qVals_cons, hdq.1, hdq.2.2.2.1]
                | cons v rest' =>
                  obtain ⟨k, hk⟩ := ih q.dequeue.2 rest v true true q.dequeue.1.1 true
                    rest' s hdq.2.2.1 (by simp) (by simp [runMeasure] at hm ⊢; omega)
                  refine ⟨k, ?_⟩
                  simp only [run, Bool.false_and, Bool.and_false, Bool.true_and, Bool.and_true,
                    Bool.and_self, Bool.not_false, Bool.not_true, Bool.false_eq_true,
                    Bool.true_eq_false, eq_self_iff_true, if_true, if_false, ite_true, ite_false]
                  rw [hdq.2.1]
                  simp only [Bool.not_true, Bool.false_eq_true, if_false, ite_false]
                  rw [hk]
                  simp [pendingOf, qVals_cons, hdq.1, hdq.2.2.2.1]
        | true =>
          cases sched with
          | nil =>
            cases inputs with
            | nil =>
              obtain ⟨k, hk⟩ := ih q addrs default false true ov true [] [] hrep (by simp)
                (by simp [runMeasure] at hm ⊢; omega)
              refine ⟨k, ?_⟩
              simp only [run, Bool.false_and, Bool.and_false, Bool.true_and, Bool.and_true,
                Bool.and_self, Bool.not_false, Bool.not_true, Bool.false_eq_true,
                Bool.true_eq_false, eq_self_iff_true, if_true, if_false, ite_true, ite_false]
              rw [hk]
              simp [pendingOf]
            | cons v rest' =>
              obtain ⟨k, hk⟩ := ih q addrs v true true ov true rest' [] hrep (by simp)
                (by simp [runMeasure] at hm ⊢; omega)
              refine ⟨k, ?_⟩
              simp only [run, Bool.false_and, Bool.and_false, Bool.true_and, Bool.and_true,
                Bool.and_self, Bool.not_false, Bool.not_true, Bool.false_eq_true,
                Bool.true_eq_false, eq_self_iff_true, if_true, if_false, ite_true, ite_false]
              rw [hk]
              simp [pendingOf]
          | cons b s =>
            cases b with
            | true =>
              obtain ⟨k, hk⟩ := ih q addrs iv true false default false inputs s hrep (by simp)
                (by simp [runMeasure] at hm ⊢; omega)
              refine ⟨k + 1, ?_⟩
              simp only [run, Bool.false_and, Bool.and_false, Bool.true_and, Bool.and_true,
                Bool.and_self, Bool.not_false, Bool.not_true, Bool.false_eq_true,
                Bool.true_eq_false, eq_self_iff_true, if_true, if_false, ite_true, ite_false]
              rw [hk]
              simp [pendingOf, List.take_succ_cons]
            | false =>
              cases inputs with
              | nil =>
                obtain ⟨k, hk⟩ := ih q addrs default false true ov true [] s hrep (by simp)
                  (by simp [runMeasure] at hm ⊢; omega)
                refine ⟨k, ?_⟩
                simp only [run, Bool.false_and, Bool.and_false, Bool.true_and, Bool.and_true,
                  Bool.and_self, Bool.not_false, Bool.not_true, Bool.false_eq_true,
                  Bool.true_eq_false, eq_self_iff_true, if_true, if_false, ite_true, ite_false]
                rw [hk]
                simp [pendingOf]
              | cons v rest' =>
                obtain ⟨k, hk⟩ := ih q addrs v true true ov true rest' s hrep (by simp)
                  (by simp [runMeasure] at hm ⊢; omega)
                refine ⟨k, ?_⟩
                simp only [run, Bool.false_and, Bool.and_false, Bool.true_and, Bool.and_true,
                  Bool.and_self, Bool.not_false, Bool.not_true, Bool.false_eq_true,
                  Bool.true_eq_false, eq_self_iff_true, if_true, if_false, ite_true, ite_false]
                rw [hk]
                simp [pendingOf]
      | true =>
        cases ok with
        | false =>
          have haddr : addrs = [] := hinv rfl rfl rfl
          subst haddr
          cases sched with
          | nil =>
            cases inputs with
            | nil =>
              obtain ⟨k, hk⟩ := ih q [] default false true iv true [] [] hrep (by simp)
                (by simp [runMeasure] at hm ⊢; omega)
              refine ⟨k, ?_⟩
              simp only [run, Bool.false_and, Bool.and_false, Bool.true_and, Bool.and_true,
                Bool.and_self, Bool.not_false, Bool.not_true, Bool.false_eq_true,
                Bool.true_eq_false, eq_self_iff_true, if_true, if_false, ite_true, ite_false]
              rw [hk]
              simp [pendingOf, qVals]
            | cons v rest' =>
              obtain ⟨k, hk⟩ := ih q [] v true true iv true rest' [] hrep (by simp)
                (by simp [runMeasure] at hm ⊢; omega)
              refine ⟨k, ?_⟩
              simp only [run, Bool.false_and, Bool.and_false, Bool.true_and, Bool.and_true,
                Bool.and_self, Bool.not_false, Bool.not_true, Bool.false_eq_true,
                Bool.true_eq_false, eq_self_iff_true, if_true, if_false, ite_true, ite_false]
              rw [hk]
              simp [pendingOf, qVals]
          | cons b s =>
            cases b with
            | true =>
              obtain ⟨k, hk⟩ := ih q [] default true false default false inputs s hrep (by simp)
                (by simp [runMeasure] at hm ⊢; omega)
              refine ⟨k + 1, ?_⟩
              simp only [run, Bool.false_and, Bool.and_false, Bool.true_and, Bool.and_true,
                Bool.and_self, Bool.not_false, Bool.not_true, Bool.false_eq_true,
                Bool.true_eq_false, eq_self_iff_true, if_true, if_false, ite_true, ite_false]
              rw [hk]
              simp [pendingOf, qVals, List.take_succ_cons]
            | false =>
              cases inputs with
              | nil =>
                obtain ⟨k, hk⟩ := ih q [] default false true iv true [] s hrep (by simp)
                  (by simp [runMeasure] at hm ⊢; omega)
                refine ⟨k, ?_⟩
                simp only [run, Bool.false_and, Bool.and_false, Bool.true_and, Bool.and_true,
                  Bool.and_self, Bool.not_false, Bool.not_true, Bool.false_eq_true,
                  Bool.true_eq_false, eq_self_iff_true, if_true, if_false, ite_true, ite_false]
                rw [hk]
                simp [pendingOf, qVals]
              | cons v rest' =>
                obtain ⟨k, hk⟩ := ih q [] v true true iv true rest' s hrep (by simp)
                  (by simp [runMeasure] at hm ⊢; omega)
                refine ⟨k, ?_⟩
                simp only [run, Bool.false_and, Bool.and_false, Bool.true_and, Bool.and_true,
                  Bool.and_self, Bool.not_false, Bool.not_true, Bool.false_eq_true,
                  Bool.true_eq_false, eq_self_iff_true, if_true, if_false, ite_true, ite_false]
                rw [hk]
                simp [pendingOf, qVals]
        | true =>
          obtain ⟨a, ha, hrepE, hvalsE⟩ := enqueue_rep iv hrep
          cases sched with
          | nil =>
            cases inputs with
            | nil =>
              obtain ⟨k, hk⟩ := ih (q.enqueue iv) (addrs ++ [a]) default false true ov true
                [] [] hrepE (by simp) (by simp [runMeasure] at hm ⊢; omega)
              refine ⟨k, ?_⟩
              simp only [run, Bool.false_and, Bool.and_false, Bool.true_and, Bool.and_true,
                Bool.and_self, Bool.not_false, Bool.not_true, Bool.false_eq_true,
                Bool.true_eq_false, eq_self_iff_true, if_true, if_false, ite_true, ite_false]
              rw [hk]
              simp [pendingOf, hvalsE]
            | cons v rest' =>
              obtain ⟨k, hk⟩ := ih (q.enqueue iv) (addrs ++ [a]) v true true ov true
                rest' [] hrepE (by simp) (by simp [runMeasure] at hm ⊢; omega)
              refine ⟨k, ?_⟩
              simp only [run, Bool.false_and, Bool.and_false, Bool.true_and, Bool.and_true,
                Bool.and_self, Bool.not_false, Bool.not_true, Bool.false_eq_true,
                Bool.true_eq_false, eq_self_iff_true, if_true, if_false, ite_true, ite_false]
              rw [hk]
              simp [pendingOf, hvalsE]
          | cons b s =>
            cases b with
            | true =>
              obtain ⟨k, hk⟩ := ih (q.enqueue iv) (addrs ++ [a]) default true false default
                false inputs s hrepE (by simp) (by simp [runMeasure] at hm ⊢; omega)
              refine ⟨k + 1, ?_⟩
              simp only [run, Bool.false_and, Bool.and_false, Bool.true_and, Bool.and_true,
                Bool.and_self, Bool.not_false, Bool.not_true, Bool.false_eq_true,
                Bool.true_eq_false, eq_self_iff_true, if_true, if_false, ite_true, ite_false]
              rw [hk]
              simp [pendingOf, hvalsE, List.take_succ_cons]
            | false =>
              cases inputs with
              | nil =>
                obtain ⟨k, hk⟩ := ih (q.enqueue iv) (addrs ++ [a]) default false true ov true
                  [] s hrepE (by simp) (by simp [runMeasure] at hm ⊢; omega)
                refine ⟨k, ?_⟩
                simp only [run, Bool.false_and, Bool.and_false, Bool.true_and, Bool.and_true,
                  Bool.and_self, Bool.not_false, Bool.not_true, Bool.false_eq_true,
                  Bool.true_eq_false, eq_self_iff_true, if_true, if_false, ite_true, ite_false]
                rw [hk]
                simp [pendingOf, hvalsE]
              | cons v rest' =>
                obtain ⟨k, hk⟩ := ih (q.enqueue iv) (addrs ++ [a]) v true true ov true
                  rest' s hrepE (by simp) (by simp [runMeasure] at hm ⊢; omega)
                refine ⟨k, ?_⟩
                simp only [run, Bool.false_and, Bool.and_false, Bool.true_and, Bool.and_true,
                  Bool.and_self, Bool.not_false, Bool.not_true, Bool.false_eq_true,
                  Bool.true_eq_false, eq_self_iff_true, if_true, if_false, ite_true, ite_false]
                rw [hk]
                simp [pendingOf, hvalsE]

/-- Claim C2: with flush-on-close=false, for every sequence of values sent
before closing the input channel and every resolution of the select
nondeterminism, the consumer receives some k values with 0 <= k <= N before
the output channel closes, and those values are a prefix of the sent sequence
in order (on observing close the worker returns at once, discarding the
pending slot and queued values). -/
theorem run_noSendAll_bounded_loss [Inhabited T] (inputs : List T) (sched : List Bool)
    (fuel : Nat) (hfuel : 2 * inputs.length + 3 <= fuel) :
    ∃ k, k <= inputs.length ∧
      runFromStart false fuel inputs sched =
        some ((inputs.take k).map Ev.val ++ [Ev.closed]) := by
  obtain ⟨k, hk⟩ := run_noSendAll_master fuel (emptyQueue T) [] default true false default
    false inputs sched (rep_empty T) (by simp) (by simp [runMeasure]; omega)
  have hk' : runFromStart false fuel inputs sched =
      some ((inputs.take k).map Ev.val ++ [Ev.closed]) := by
    simpa [runFromStart, pendingOf, qVals] using hk
  refine ⟨min k inputs.length, Nat.min_le_right _ _, ?_⟩
  rw [hk', show inputs.take k = inputs.take (min k inputs.length) from
    List.take_eq_take.mpr (by omega)]

theorem run_noSendAll_bounded_loss_witness :
    2 * ([4, 5] : List Nat).length + 3 <= 7 ∧
    ∃ k, k <= ([4, 5] : List Nat).length ∧
      runFromStart false 7 ([4, 5] : List Nat) [] =
        some ((([4, 5] : List Nat).take k).map Ev.val ++ [Ev.closed]) :=
  ⟨by decide, run_noSendAll_bounded_loss [4, 5] [] 7 (by decide)⟩

theorem run_shape [Inhabited T] :
    ∀ (fuel : Nat) (sendAllOnClose : Bool) (q : queue T) (iv : T) (io ir : Bool) (ov : T)
      (ok : Bool) (inputs : List T) (sched : List Bool) (tr : List (Ev T)),
      run sendAllOnClose fuel q iv io ir ov ok inputs sched = some tr →
      ∃ vs : List T, tr = vs.map Ev.val ++ [Ev.closed] := by
  intro fuel
  induction fuel with
  | zero =>
    intro flush q iv io ir ov ok inputs sched tr h
    simp [run] at h
  | succ fuel ih =>
    intro flush q iv io ir ov ok inputs sched tr h
    simp only [run] at h
    repeat' split at h
    all_goals first
      | exact ⟨[], by simpa using (Option.some.inj h).symm⟩
      | (obtain ⟨tr', htr', hf⟩ := Option.map_eq_some'.mp h
         obtain ⟨vs, rfl⟩ := ih _ _ _ _ _ _ _ _ _ _ htr'
         exact ⟨_ :: vs, hf.symm⟩)
      | exact ih _ _ _ _ _ _ _ _ _ _ h

/-- The older worker variant `Channel.run` from unlimited_channel.go: every
received value is enqueued, the head is read with pick and removed with
dequeue only after a successful send, and the worker returns (closing the
output channel) as soon as the input channel yields the closed signal,
discarding the queue contents.  Channel interaction is modelled exactly as
for `run`: `inputs` and a schedule resolving the select between receive and
send when a head value is available (`true` = send). -/
def pickRun [Inhabited T] : Nat → queue T → List T → List Bool → Option (List (Ev T))
  | 0, _, _, _ => none
  | fuel + 1, q, inputs, sched =>
    match q.pick with
    | (outValue, true) =>
      match sched with
      | true :: s =>
        Option.map (fun tr => Ev.val outValue :: tr) (pickRun fuel q.dequeue.2 inputs s)
      | false :: s =>
        match inputs with
        | v :: rest => pickRun fuel (q.enqueue v) rest s
        | [] => some [Ev.closed]
      | [] =>
        match inputs with
        | v :: rest => pickRun fuel (q.enqueue v) rest []
        | [] => some [Ev.closed]
    | (_, false) =>
      match inputs with
      | v :: rest => pickRun fuel (q.enqueue v) rest sched
      | [] => some [Ev.closed]

example : pickRun 9 (emptyQueue Nat) [1, 2] [false, true, true] =
    some [Ev.val 1, Ev.val 2, Ev.closed] := by decide

example : pickRun 9 (emptyQueue Nat) [1, 2] [] = some [Ev.closed] := by decide

theorem pickRun_shape [Inhabited T] :
    ∀ (fuel : Nat) (q : queue T) (addrs : List Nat) (inputs : List T) (sched : List Bool)
      (tr : List (Ev T)),
      Rep q addrs →
      pickRun fuel q inputs sched = some tr →
      ∃ k, tr = ((qVals q.store addrs ++ inputs).take k).map Ev.val ++ [Ev.closed] := by
  intro fuel
  induction fuel with
  | zero =>
    intro q addrs inputs sched tr _ h
    simp [pickRun] at h
  | succ fuel ih =>
    intro q addrs inputs sched tr hrep h
    cases addrs with
    | nil =>
      simp only [pickRun, pick_nil hrep] at h
      cases inputs with
      | nil =>
        refine ⟨0, ?_⟩
        simpa using (Option.some.inj h).symm
      | cons v rest =>
        obtain ⟨a, _, hrepE, hvalsE⟩ := enqueue_rep v hrep
        obtain ⟨k, rfl⟩ := ih (q.enqueue v) ([] ++ [a]) rest sched tr hrepE h
        refine ⟨k, ?_⟩
        rw [hvalsE]
        simp [qVals]
    | cons a rest =>
      have hdq := dequeue_cons hrep
      simp only [pickRun, pick_cons hrep] at h
      cases sched with
      | nil =>
        cases inputs with
        | nil =>
          refine ⟨0, ?_⟩
          simpa using (Option.some.inj h).symm
        | cons v rest' =>
          obtain ⟨b, _, hrepE, hvalsE⟩ := enqueue_rep v hrep
          obtain ⟨k, rfl⟩ := ih (q.enqueue v) ((a :: rest) ++ [b]) rest' [] tr hrepE h
          refine ⟨k, ?_⟩
          rw [hvalsE]
          simp
      | cons c s =>
        cases c with
        | true =>
          obtain ⟨tr', htr', hf⟩ := Option.map_eq_some'.mp h
          obtain ⟨k, rfl⟩ := ih q.dequeue.2 rest inputs s tr' hdq.2.2.1 htr'
          refine ⟨k + 1, ?_⟩
          rw [← hf]
          simp [qVals_cons, hdq.2.2.2.1, List.take_succ_cons]
        | false =>
          cases inputs with
          | nil =>
            refine ⟨0, ?_⟩
            simpa using (Option.some.inj h).symm
          | cons v rest' =>
            obtain ⟨b, _, hrepE, hvalsE⟩ := enqueue_rep v hrep
            obtain ⟨k, rfl⟩ := ih (q.enqueue v) ((a :: rest) ++ [b]) rest' s tr hrepE h
            refine ⟨k, ?_⟩
            rw [hvalsE]
            simp


theorem run_noSendAll_shape [Inhabited T] :
    ∀ (fuel : Nat) (q : queue T) (addrs : List Nat) (iv : T) (io ir : Bool)
      (ov : T) (ok : Bool) (inputs : List T) (sched : List Bool) (tr : List (Ev T)),
      Rep q addrs →
      (ir = true → io = true → ok = false → addrs = []) →
      run false fuel q iv io ir ov ok inputs sched = some tr →
      ∃ k, tr = ((pendingOf (qVals q.store addrs) iv io ir ov ok inputs).take k).map Ev.val
          ++ [Ev.closed] := by
  intro fuel
  induction fuel with
  | zero =>
    intro q addrs iv io ir ov ok inputs sched tr _ _ h
    simp [run] at h
  | succ fuel ih =>
    intro q addrs iv io ir ov ok inputs sched tr hrep hinv h
    cases io with
    | false =>
      refine ⟨0, ?_⟩
      cases ir <;> cases ok <;>
      · simp only [run, Bool.false_and, Bool.and_false, Bool.true_and, Bool.and_true,
          Bool.and_self, Bool.not_false, Bool.not_true, Bool.false_eq_true,
          Bool.true_eq_false, eq_self_iff_true, if_true, if_false, ite_true, ite_false,
          ite_self] at h
        simpa using (Option.some.inj h).symm
    | true =>
      cases ir with
      | false =>
        cases ok with
        | false =>
          cases addrs with
          | nil =>
            cases inputs with
            | nil =>
              simp only [run, Bool.false_and, Bool.and_false, Bool.true_and, Bool.and_true,
                Bool.and_self, Bool.not_false, Bool.not_true, Bool.false_eq_true,
                Bool.true_eq_false, eq_self_iff_true, if_true, if_false, ite_true,
                ite_false] at h
              rw [dequeue_nil hrep] at h
              obtain ⟨k, rfl⟩ := ih q [] default false true default false [] sched tr hrep
                (by simp) h
              refine ⟨k, ?_⟩
              simp [pendingOf]
            | cons v rest =>
              simp only [run, Bool.false_and, Bool.and_false, Bool.true_and, Bool.and_true,
                Bool.and_self, Bool.not_false, Bool.not_true, Bool.false_eq_true,
                Bool.true_eq_false, eq_self_iff_true, if_true, if_false, ite_true,
                ite_false] at h
              rw [dequeue_nil hrep] at h
              obtain ⟨k, rfl⟩ := ih q [] v true true default false rest sched tr hrep
                (fun _ _ _ => rfl) h
              refine ⟨k, ?_⟩
              simp [pendingOf, qVals]
          | cons a rest =>
            have hdq := dequeue_cons hrep
            cases sched with
            | nil =>
              cases inputs with
              | nil =>
                simp only [run, Bool.false_and, Bool.and_false, Bool.true_and, Bool.and_true,
                  Bool.and_self, Bool.not_false, Bool.not_true, Bool.false_eq_true,
                  Bool.true_eq_false, eq_self_iff_true, if_true, if_false, ite_true,
                  ite_false] at h
                rw [hdq.2.1] at h
                simp only [Bool.not_true, Bool.false_eq_true, if_false, ite_false] at h
                obtain ⟨k, rfl⟩ := ih q.dequeue.2 rest default false true q.dequeue.1.1 true
                  [] [] tr hdq.2.2.1 (by simp) h
                refine ⟨k, ?_⟩
                simp [pendingOf, qVals_cons, hdq.1, hdq.2.2.2.1]
              | cons v rest' =>
                simp only [run, Bool.false_and, Bool.and_false, Bool.true_and, Bool.and_true,
                  Bool.and_self, Bool.not_false, Bool.not_true, Bool.false_eq_true,
                  Bool.true_eq_false, eq_self_iff_true, if_true, if_false, ite_true,
                  ite_false] at h
                rw [hdq.2.1] at h
                simp only [Bool.not_true, Bool.false_eq_true, if_false, ite_false] at h
                obtain ⟨k, rfl⟩ := ih q.dequeue.2 rest v true true q.dequeue.1.1 true
                  rest' [] tr hdq.2.2.1 (by simp) h
                refine ⟨k, ?_⟩
                simp [pendingOf, qVals_cons, hdq.1, hdq.2.2.2.1]
            | cons b s =>
              cases b with
              | true =>
                simp only [run, Bool.false_and, Bool.and_false, Bool.true_and, Bool.and_true,
                  Bool.and_self, Bool.not_false, Bool.not_true, Bool.false_eq_true,
                  Bool.true_eq_false, eq_self_iff_true, if_true, if_false, ite_true,
                  ite_false] at h
                rw [hdq.2.1] at h
                simp only [Bool.not_true, Bool.false_eq_true, if_false, ite_false] at h
                obtain ⟨tr', htr', hf⟩ := Option.map_eq_some'.mp h
                obtain ⟨k, rfl⟩ := ih q.dequeue.2 rest iv true false default false inputs s
                  tr' hdq.2.2.1 (by simp) htr'
                refine ⟨k + 1, ?_⟩
                rw [← hf]
                simp [pendingOf, qVals_cons, hdq.1, hdq.2.2.2.1, List.take_succ_cons]
              | false =>
                cases inputs with
                | nil =>
                  simp only [run, Bool.false_and, Bool.and_false, Bool.true_and,
                    Bool.and_true, Bool.and_self, Bool.not_false, Bool.not_true,
                    Bool.false_eq_true, Bool.true_eq_false, eq_self_iff_true, if_true,
                    if_false, ite_true, ite_false] at h
                  rw [hdq.2.1] at h
                  simp only [Bool.not_true, Bool.false_eq_true, if_false, ite_false] at h
                  obtain ⟨k, rfl⟩ := ih q.dequeue.2 rest default false true q.dequeue.1.1
                    true [] s tr hdq.2.2.1 (by simp) h
                  refine ⟨k, ?_⟩
                  simp [pendingOf, qVals_cons, hdq.1, hdq.2.2.2.1]
                | cons v rest' =>
                  simp only [run, Bool.false_and, Bool.and_false, Bool.true_and,
                    Bool.and_true, Bool.and_self, Bool.not_false, Bool.not_true,
                    Bool.false_eq_true, Bool.true_eq_false, eq_self_iff_true, if_true,
                    if_false, ite_true, ite_false] at h
                  rw [hdq.2.1] at h
                  simp only [Bool.not_true, Bool.false_eq_true, if_false, ite_false] at h
                  obtain ⟨k, rfl⟩ := ih q.dequeue.2 rest v true true q.dequeue.1.1 true
                    rest' s tr hdq.2.2.1 (by simp) h
                  refine ⟨k, ?_⟩
                  simp [pendingOf, qVals_cons, hdq.1, hdq.2.2.2.1]
        | true =>
          cases sched with
          | nil =>
            cases inputs with
            | nil =>
              simp only [run, Bool.false_and, Bool.and_false, Bool.true_and, Bool.and_true,
                Bool.and_self, Bool.not_false, Bool.not_true, Bool.false_eq_true,
                Bool.true_eq_false, eq_self_iff_true, if_true, if_false, ite_true,
                ite_false] at h
              obtain ⟨k, rfl⟩ := ih q addrs default false true ov true [] [] tr hrep
                (by simp) h
              refine ⟨k, ?_⟩
              simp [pendingOf]
            | cons v rest' =>
              simp only [run, Bool.false_and, Bool.and_false, Bool.true_and, Bool.and_true,
                Bool.and_self, Bool.not_false, Bool.not_true, Bool.false_eq_true,
                Bool.true_eq_false, eq_self_iff_true, if_true, if_false, ite_true,
                ite_false] at h
              obtain ⟨k, rfl⟩ := ih q addrs v true true ov true rest' [] tr hrep
                (by simp) h
              refine ⟨k, ?_⟩
              simp [pendingOf]
          | cons b s =>
            cases b with
            | true =>
              simp only [run, Bool.false_and, Bool.and_false, Bool.true_and, Bool.and_true,
                Bool.and_self, Bool.not_false, Bool.not_true, Bool.false_eq_true,
                Bool.true_eq_false, eq_self_iff_true, if_true, if_false, ite_true,
                ite_false] at h
              obtain ⟨tr', htr', hf⟩ := Option.map_eq_some'.mp h
              obtain ⟨k, rfl⟩ := ih q addrs iv true false default false inputs s tr' hrep
                (by simp) htr'
              refine ⟨k + 1, ?_⟩
              rw [← hf]
              simp [pendingOf, List.take_succ_cons]
            | false =>
              cases inputs with
              | nil =>
                simp only [run, Bool.false_and, Bool.and_false, Bool.true_and, Bool.and_true,
                  Bool.and_self, Bool.not_false, Bool.not_true, Bool.false_eq_true,
                  Bool.true_eq_false, eq_self_iff_true, if_true, if_false, ite_true,
                  ite_false] at h
                obtain ⟨k, rfl⟩ := ih q addrs default false true ov true [] s tr hrep
                  (by simp) h
                refine ⟨k, ?_⟩
                simp [pendingOf]
              | cons v rest' =>
                simp only [run, Bool.false_and, Bool.and_false, Bool.true_and, Bool.and_true,
                  Bool.and_self, Bool.not_false, Bool.not_true, Bool.false_eq_true,
                  Bool.true_eq_false, eq_self_iff_true, if_true, if_false, ite_true,
                  ite_false] at h
                obtain ⟨k, rfl⟩ := ih q addrs v true true ov true rest' s tr hrep
                  (by simp) h
                refine ⟨k, ?_⟩
                simp [pendingOf]
      | true =>
        cases ok with
        | false =>
          have haddr : addrs = [] := hinv rfl rfl rfl
          subst haddr
          cases sched with
          | nil =>
            cases inputs with
            | nil =>
              simp only [run, Bool.false_and, Bool.and_false, Bool.true_and, Bool.and_true,
                Bool.and_self, Bool.not_false, Bool.not_true, Bool.false_eq_true,
                Bool.true_eq_false, eq_self_iff_true, if_true, if_false, ite_true,
                ite_false] at h
              obtain ⟨k, rfl⟩ := ih q [] default false true iv true [] [] tr hrep
                (by simp) h
              refine ⟨k, ?_⟩
              simp [pendingOf, qVals]
            | cons v rest' =>
              simp only [run, Bool.false_and, Bool.and_false, Bool.true_and, Bool.and_true,
                Bool.and_self, Bool.not_false, Bool.not_true, Bool.false_eq_true,
                Bool.true_eq_false, eq_self_iff_true, if_true, if_false, ite_true,
                ite_false] at h
              obtain ⟨k, rfl⟩ := ih q [] v true true iv true rest' [] tr hrep
                (by simp) h
              refine ⟨k, ?_⟩
              simp [pendingOf, qVals]
          | cons b s =>
            cases b with
            | true =>
              simp only [run, Bool.false_and, Bool.and_false, Bool.true_and, Bool.and_true,
                Bool.and_self, Bool.not_false, Bool.not_true, Bool.false_eq_true,
                Bool.true_eq_false, eq_self_iff_true, if_true, if_false, ite_true,
                ite_false] at h
              obtain ⟨tr', htr', hf⟩ := Option.map_eq_some'.mp h
              obtain ⟨k, rfl⟩ := ih q [] default true false default false inputs s tr' hrep
                (by simp) htr'
              refine ⟨k + 1, ?_⟩
              rw [← hf]
              simp [pendingOf, qVals, List.take_succ_cons]
            | false =>
              cases inputs with
              | nil =>
                simp only [run, Bool.false_and, Bool.and_false, Bool.true_and, Bool.and_true,
                  Bool.and_self, Bool.not_false, Bool.not_true, Bool.false_eq_true,
                  Bool.true_eq_false, eq_self_iff_true, if_true, if_false, ite_true,
                  ite_false] at h
                obtain ⟨k, rfl⟩ := ih q [] default false true iv true [] s tr hrep
                  (by simp) h
                refine ⟨k, ?_⟩
                simp [pendingOf, qVals]
              | cons v rest' =>
                simp only [run, Bool.false_and, Bool.and_false, Bool.true_and, Bool.and_true,
                  Bool.and_self, Bool.not_false, Bool.not_true, Bool.false_eq_true,
                  Bool.true_eq_false, eq_self_iff_true, if_true, if_false, ite_true,
                  ite_false] at h
                obtain ⟨k, rfl⟩ := ih q [] v true true iv true rest' s tr hrep
                  (by simp) h
                refine ⟨k, ?_⟩
                simp [pendingOf, qVals]
        | true =>
          obtain ⟨a, ha, hrepE, hvalsE⟩ := enqueue_rep iv hrep
          cases sched with
          | nil =>
            cases inputs with
            | nil =>
              simp only [run, Bool.false_and, Bool.and_false, Bool.true_and, Bool.and_true,
                Bool.and_self, Bool.not_false, Bool.not_true, Bool.false_eq_true,
                Bool.true_eq_false, eq_self_iff_true, if_true, if_false, ite_true,
                ite_false] at h
              obtain ⟨k, rfl⟩ := ih (q.enqueue iv) (addrs ++ [a]) default false true ov true
                [] [] tr hrepE (by simp) h
              refine ⟨k, ?_⟩
              simp [pendingOf, hvalsE]
            | cons v rest' =>
              simp only [run, Bool.false_and, Bool.and_false, Bool.true_and, Bool.and_true,
                Bool.and_self, Bool.not_false, Bool.not_true, Bool.false_eq_true,
                Bool.true_eq_false, eq_self_iff_true, if_true, if_false, ite_true,
                ite_false] at h
              obtain ⟨k, rfl⟩ := ih (q.enqueue iv) (addrs ++ [a]) v true true ov true
                rest' [] tr hrepE (by simp) h
              refine ⟨k, ?_⟩
              simp [pendingOf, hvalsE]
          | cons b s =>
            cases b with
            | true =>
              simp only [run, Bool.false_and, Bool.and_false, Bool.true_and, Bool.and_true,
                Bool.and_self, Bool.not_false, Bool.not_true, Bool.false_eq_true,
                Bool.true_eq_false, eq_self_iff_true, if_true, if_false, ite_true,
                ite_false] at h
              obtain ⟨tr', htr', hf⟩ := Option.map_eq_some'.mp h
              obtain ⟨k, rfl⟩ := ih (q.enqueue iv) (addrs ++ [a]) default true false default
                false inputs s tr' hrepE (by simp) htr'
              refine ⟨k + 1, ?_⟩
              rw [← hf]
              simp [pendingOf, hvalsE, List.take_succ_cons]
            | false =>
              cases inputs with
              | nil =>
                simp only [run, Bool.false_and, Bool.and_false, Bool.true_and, Bool.and_true,
                  Bool.and_self, Bool.not_false, Bool.not_true, Bool.false_eq_true,
                  Bool.true_eq_false, eq_self_iff_true, if_true, if_false, ite_true,
                  ite_false] at h
                obtain ⟨k, rfl⟩ := ih (q.enqueue iv) (addrs ++ [a]) default false true ov
                  true [] s tr hrepE (by simp) h
                refine ⟨k, ?_⟩
                simp [pendingOf, hvalsE]
              | cons v rest' =>
                simp only [run, Bool.false_and, Bool.and_false, Bool.true_and, Bool.and_true,
                  Bool.and_self, Bool.not_false, Bool.not_true, Bool.false_eq_true,
                  Bool.true_eq_false, eq_self_iff_true, if_true, if_false, ite_true,
                  ite_false] at h
                obtain ⟨k, rfl⟩ := ih (q.enqueue iv) (addrs ++ [a]) v true true ov true
                  rest' s tr hrepE (by simp) h
                refine ⟨k, ?_⟩
                simp [pendingOf, hvalsE]


/-- With sendAllOnClose=false, once the input channel is observed closed the
worker returns immediately (closing the output channel), whatever else the
state holds. -/
theorem run_closed_input [Inhabited T] (fuel : Nat) (q : queue T) (iv ov : T)
    (ir ok : Bool) (inputs : List T) (sched : List Bool) (h : 1 ≤ fuel) :
    run false fuel q iv false ir ov ok inputs sched = some [Ev.closed] := by
  obtain ⟨f, rfl⟩ : ∃ f, fuel = f + 1 := ⟨fuel - 1, by omega⟩
  cases ir <;> cases ok <;>
    simp [run, Bool.false_and, Bool.and_false, Bool.true_and, Bool.and_true,
      Bool.and_self, Bool.not_false, Bool.not_true, Bool.false_eq_true,
      Bool.true_eq_false, eq_self_iff_true, if_true, if_false, ite_true, ite_false,
      ite_self]

/-- With sendAllOnClose=false and an all-receive schedule, the worker absorbs
every remaining input value and terminates on the close signal without
sending anything. -/
theorem run_discard [Inhabited T] :
    ∀ (fuel : Nat) (q : queue T) (addrs : List Nat) (iv ov : T) (ok : Bool)
      (inputs : List T) (m : Nat),
      Rep q addrs →
      (ok = false → addrs = []) →
      inputs.length + 2 ≤ fuel →
      inputs.length + 1 ≤ m →
      run false fuel q iv true true ov ok inputs (List.replicate m false) =
        some [Ev.closed] := by
  intro fuel
  induction fuel with
  | zero => intro q addrs iv ov ok inputs m _ _ hf _; omega
  | succ fuel ih =>
    intro q addrs iv ov ok inputs m hrep hinv hf hm
    obtain ⟨m', rfl⟩ : ∃ m', m = m' + 1 := ⟨m - 1, by omega⟩
    rw [List.replicate_succ]
    cases ok with
    | false =>
      have haddr : addrs = [] := hinv rfl
      subst haddr
      cases inputs with
      | nil =>
        simp only [run, Bool.false_and, Bool.and_false, Bool.true_and, Bool.and_true,
          Bool.and_self, Bool.not_false, Bool.not_true, Bool.false_eq_true,
          Bool.true_eq_false, eq_self_iff_true, if_true, if_false, ite_true, ite_false]
        exact run_closed_input fuel q default iv true true [] _ (by omega)
      | cons v rest =>
        simp only [run, Bool.false_and, Bool.and_false, Bool.true_and, Bool.and_true,
          Bool.and_self, Bool.not_false, Bool.not_true, Bool.false_eq_true,
          Bool.true_eq_false, eq_self_iff_true, if_true, if_false, ite_true, ite_false]
        exact ih q [] v iv true rest m' hrep (by simp) (by simp at hf ⊢; omega)
          (by simp at hm ⊢; omega)
    | true =>
      obtain ⟨a, _, hrepE, _⟩ := enqueue_rep iv hrep
      cases inputs with
      | nil =>
        simp only [run, Bool.false_and, Bool.and_false, Bool.true_and, Bool.and_true,
          Bool.and_self, Bool.not_false, Bool.not_true, Bool.false_eq_true,
          Bool.true_eq_false, eq_self_iff_true, if_true, if_false, ite_true, ite_false]
        exact run_closed_input fuel (q.enqueue iv) default ov true true [] _ (by omega)
      | cons v rest =>
        simp only [run, Bool.false_and, Bool.and_false, Bool.true_and, Bool.and_true,
          Bool.and_self, Bool.not_false, Bool.not_true, Bool.false_eq_true,
          Bool.true_eq_false, eq_self_iff_true, if_true, if_false, ite_true, ite_false]
        exact ih (q.enqueue iv) (addrs ++ [a]) v ov true rest m' hrepE (by simp)
          (by simp at hf ⊢; omega) (by simp at hm ⊢; omega)

/-- With sendAllOnClose=false, the schedule that serves the consumer k times
and then only receives makes the worker deliver exactly the first k values. -/
theorem run_emits [Inhabited T] :
    ∀ (k : Nat) (inputs : List T) (fuel : Nat), k ≤ inputs.length →
      2 * inputs.length + 3 ≤ fuel →
      run false fuel (emptyQueue T) default true false default false inputs
        (List.replicate k true ++ List.replicate (inputs.length - k) false) =
      some ((inputs.take k).map Ev.val ++ [Ev.closed]) := by
  intro k
  induction k with
  | zero =>
    intro inputs fuel _ hf
    cases inputs with
    | nil =>
      simpa using @run_empty_close T _ false [] fuel (by omega)
    | cons v rest =>
      obtain ⟨f, rfl⟩ : ∃ f, fuel = f + 1 := ⟨fuel - 1, by omega⟩
      simp only [run, Bool.false_and, Bool.and_false, Bool.true_and, Bool.and_true,
        Bool.and_self, Bool.not_false, Bool.not_true, Bool.false_eq_true,
        Bool.true_eq_false, eq_self_iff_true, if_true, if_false, ite_true, ite_false]
      rw [dequeue_nil (rep_empty T)]
      simp only [List.replicate, List.nil_append, List.take_zero, List.map_nil]
      have := run_discard f (emptyQueue T) [] v default false rest (rest.length + 1)
        (rep_empty T) (fun _ => rfl) (by simp at hf ⊢; omega) le_rfl
      simpa [List.length_cons] using this
  | succ k ihk =>
    intro inputs fuel hk hf
    cases inputs with
    | nil => simp at hk
    | cons v rest =>
      obtain ⟨f, rfl⟩ : ∃ f, fuel = f + 2 := ⟨fuel - 2, by omega⟩
      show run false (f + 1 + 1) _ _ _ _ _ _ _ _ = _
      simp only [run, Bool.false_and, Bool.and_false, Bool.true_and, Bool.and_true,
        Bool.and_self, Bool.not_false, Bool.not_true, Bool.false_eq_true,
        Bool.true_eq_false, eq_self_iff_true, if_true, if_false, ite_true, ite_false]
      rw [dequeue_nil (rep_empty T)]
      simp only [List.replicate_succ, List.cons_append]
      simp only [run, Bool.false_and, Bool.and_false, Bool.true_and, Bool.and_true,
        Bool.and_self, Bool.not_false, Bool.not_true, Bool.false_eq_true,
        Bool.true_eq_false, eq_self_iff_true, if_true, if_false, ite_true, ite_false]
      rw [show (v :: rest).length - (k + 1) = rest.length - k by
        simp [List.length_cons]]
      rw [ihk rest f (by simp at hk; omega) (by simp at hf; omega)]
      simp [List.take_succ_cons]


/-- The queue-routing variant with an all-receive schedule absorbs every
remaining input and terminates on close without sending. -/
theorem pickRun_discard [Inhabited T] :
    ∀ (fuel : Nat) (q : queue T) (addrs : List Nat) (inputs : List T) (m : Nat),
      Rep q addrs →
      inputs.length + 1 ≤ fuel →
      inputs.length + 1 ≤ m →
      pickRun fuel q inputs (List.replicate m false) = some [Ev.closed] := by
  intro fuel
  induction fuel with
  | zero => intro q addrs inputs m _ hf _; omega
  | succ fuel ih =>
    intro q addrs inputs m hrep hf hm
    obtain ⟨m', rfl⟩ : ∃ m', m = m' + 1 := ⟨m - 1, by omega⟩
    cases addrs with
    | nil =>
      simp only [pickRun, pick_nil hrep]
      cases inputs with
      | nil => rfl
      | cons v rest =>
        obtain ⟨a, _, hrepE, _⟩ := enqueue_rep v hrep
        exact ih (q.enqueue v) [a] rest (m' + 1) hrepE (by simp at hf ⊢; omega)
          (by simp at hm ⊢; omega)
    | cons a rest =>
      simp only [pickRun, pick_cons hrep, List.replicate_succ]
      cases inputs with
      | nil => rfl
      | cons v rest' =>
        obtain ⟨b, _, hrepE, _⟩ := enqueue_rep v hrep
        exact ih (q.enqueue v) ((a :: rest) ++ [b]) rest' m' hrepE
          (by simp at hf ⊢; omega) (by simp at hm ⊢; omega)

/-- The queue-routing variant with a schedule that serves the consumer k times
then only receives delivers exactly the first k values. -/
theorem pickRun_emits [Inhabited T] :
    ∀ (k : Nat) (inputs : List T) (q : queue T) (fuel : Nat), k ≤ inputs.length →
      Rep q [] →
      2 * inputs.length + 3 ≤ fuel →
      pickRun fuel q inputs
        (List.replicate k true ++ List.replicate (inputs.length - k) false) =
      some ((inputs.take k).map Ev.val ++ [Ev.closed]) := by
  intro k
  induction k with
  | zero =>
    intro inputs q fuel _ hrep hf
    cases inputs with
    | nil =>
      obtain ⟨f, rfl⟩ : ∃ f, fuel = f + 1 := ⟨fuel - 1, by omega⟩
      simp [pickRun, pick_nil hrep]
    | cons v rest =>
      obtain ⟨f, rfl⟩ : ∃ f, fuel = f + 1 := ⟨fuel - 1, by omega⟩
      simp only [pickRun, pick_nil hrep]
      obtain ⟨a, _, hrepE, _⟩ := enqueue_rep v hrep
      simp only [List.replicate, List.nil_append, List.take_zero, List.map_nil]
      have := pickRun_discard f (q.enqueue v) [a] rest (rest.length + 1) hrepE
        (by simp at hf ⊢; omega) le_rfl
      simpa [List.length_cons] using this
  | succ k ihk =>
    intro inputs q fuel hk hrep hf
    cases inputs with
    | nil => simp at hk
    | cons v rest =>
      obtain ⟨f, rfl⟩ : ∃ f, fuel = f + 2 := ⟨fuel - 2, by omega⟩
      show pickRun (f + 1 + 1) _ _ _ = _
      simp only [pickRun, pick_nil hrep]
      obtain ⟨a, _, hrepE, hvalsE⟩ := enqueue_rep v hrep
      have hval : (storeGet (q.enqueue v).store a).value = v := by
        have := hvalsE
        simp [qVals] at this
        exact this
      have hdq := @dequeue_cons T _ (q.enqueue v) a [] (by simpa using hrepE)
      simp only [pickRun, @pick_cons T _ (q.enqueue v) a [] (by simpa using hrepE)]
      simp only [List.replicate_succ, List.cons_append]
      rw [show (v :: rest).length - (k + 1) = rest.length - k by
        simp [List.length_cons]]
      rw [ihk rest (q.enqueue v).dequeue.2 f (by simp at hk; omega) hdq.2.2.1
        (by simp at hf; omega)]
      rw [hval]
      simp [List.take_succ_cons]

/-- All event traces the bypass-slot worker (sendAllOnClose=false) can produce
on a given input sequence, over every fuel and schedule. -/
def bypassTraces [Inhabited T] (inputs : List T) : Set (List (Ev T)) :=
  { tr | ∃ fuel sched, runFromStart false fuel inputs sched = some tr }

/-- All event traces the queue-routing worker variant can produce on a given
input sequence, over every fuel and schedule. -/
def pickTraces [Inhabited T] (inputs : List T) : Set (List (Ev T)) :=
  { tr | ∃ fuel sched, pickRun fuel (emptyQueue T) inputs sched = some tr }

/-- Claim C4: the worker variant that routes every received value through the
queue (enqueue on every receive, pick/dequeue to send; `Channel.run`) has
exactly the same possible output behaviours as the worker with the single
pending-output bypass slot under the matching close policy
(sendAllOnClose=false, since `Channel.run` discards on close): for every
input sequence and close point the two sets of observable output traces
(values sent, then close) coincide.  The bypass slot is an optimization, not
a semantic change. -/
theorem pick_variant_trace_equiv [Inhabited T] (inputs : List T) :
    pickTraces inputs = bypassTraces inputs := by
  ext tr
  constructor
  · rintro ⟨fuel, sched, h⟩
    obtain ⟨k, rfl⟩ := pickRun_shape fuel (emptyQueue T) [] inputs sched tr (rep_empty T) h
    refine ⟨2 * inputs.length + 3,
      List.replicate (min k inputs.length) true ++
        List.replicate (inputs.length - min k inputs.length) false, ?_⟩
    have := run_emits (min k inputs.length) inputs (2 * inputs.length + 3)
      (Nat.min_le_right _ _) le_rfl
    rw [runFromStart, this, show inputs.take (min k inputs.length) = inputs.take k from
      List.take_eq_take.mpr (by omega)]
    rfl
  · rintro ⟨fuel, sched, h⟩
    obtain ⟨k, rfl⟩ := run_noSendAll_shape fuel (emptyQueue T) [] default true false
      default false inputs sched tr (rep_empty T) (by simp) h
    refine ⟨2 * inputs.length + 3,
      List.replicate (min k inputs.length) true ++
        List.replicate (inputs.length - min k inputs.length) false, ?_⟩
    have := pickRun_emits (min k inputs.length) inputs (emptyQueue T)
      (2 * inputs.length + 3) (Nat.min_le_right _ _) (rep_empty T) le_rfl
    rw [this, show inputs.take (min k inputs.length) = inputs.take k from
      List.take_eq_take.mpr (by omega)]
    simp [pendingOf, qVals]

/-! Options and `New` (current implementation). -/

/-- The options record consumed by `New`.  The context field (a host-runtime
lifecycle handle) and the release pointer carry no channel-visible data and
play no part in the capacity claim; the embedded fields are the ones `New`
uses to build the channels and start the worker. -/
structure options where
  sendAllOnClose : Bool
  buffer : Int

/-- `buildOptions`: start from the defaults (buffer 100, no flush on close)
and apply each option in order. -/
def buildOptions (opts : List (options → options)) : options :=
  opts.foldl (fun o f => f o) { sendAllOnClose := false, buffer := 100 }

/-- The `WithSendAllOnClose` option. -/
def WithSendAllOnClose (send : Bool) : options → options :=
  fun o => { o with sendAllOnClose := send }

/-- The `WithBuffer` option. -/
def WithBuffer (buffer : Int) : options → options :=
  fun o => { o with buffer := buffer }

/-- The observable setup `New` creates: the capacities of the input and
output channels (`make(chan T, buffer)`) and the flush flag handed to the
worker goroutine. -/
structure NewSetup where
  inCap : Int
  outCap : Int
  sendAllOnClose : Bool
deriving DecidableEq

/-- `New` from the current implementation: `buffer := max(0, o.buffer)`, then
both channels are made with that capacity and the worker is started with
`o.sendAllOnClose`. -/
def New (opts : List (options → options)) : NewSetup :=
  let o := buildOptions opts
  let buffer := max 0 o.buffer
  { inCap := buffer, outCap := buffer, sendAllOnClose := o.sendAllOnClose }

/-- Claim C7: for every configuration passed to `New`, the capacity used for
both the input and the output channel is the configured buffer size clamped
below at zero; a negative configured buffer yields capacity zero (fully
synchronous hand-off) rather than an error or a panic. -/
theorem New_buffer_clamped (opts : List (options → options)) :
    (New opts).inCap = max 0 (buildOptions opts).buffer ∧
    (New opts).outCap = max 0 (buildOptions opts).buffer ∧
    0 ≤ (New opts).inCap ∧ 0 ≤ (New opts).outCap ∧
    ((buildOptions opts).buffer < 0 →
      (New opts).inCap = 0 ∧ (New opts).outCap = 0) := by
  refine ⟨rfl, rfl, le_max_left _ _, le_max_left _ _, fun h => ?_⟩
  have hmax : max 0 (buildOptions opts).buffer = 0 := max_eq_left h.le
  exact ⟨hmax, hmax⟩

theorem New_buffer_clamped_witness :
    (buildOptions [WithBuffer (-5)]).buffer < 0 ∧
    (New [WithBuffer (-5)]).inCap = 0 ∧ (New [WithBuffer (-5)]).outCap = 0 :=
  ⟨by decide, (New_buffer_clamped [WithBuffer (-5)]).2.2.2.2 (by decide)⟩

/-! The release/drain protocol. -/

/-- State of the input channel as the release procedure observes it: the
values currently buffered in the channel, and whether it has been closed. -/
structure chanState (T : Type) where
  buf : List T
  closed : Bool
deriving DecidableEq

/-- One action the release procedure performs on the input channel. -/
inductive RelAct where
  | recvIn
  | closeIn
deriving DecidableEq

/-- The drain loop of `release` (and of `Channel.release` in the worker
refactor, which is the same loop): repeatedly run a select between a
non-blocking receive from the input channel and a default branch that closes
it, until the receive reports the channel closed.  Go select semantics: the
receive case is ready iff the channel holds a buffered value or is closed (a
closed channel's receive is always ready, yielding ok=false once the buffer
is empty); only when no case is ready does the default branch run
`close(in)`.  The concurrently running worker may itself consume buffered
values between iterations; `steals` says how many it takes before each
iteration.  Returns the final channel state and the list of actions
performed, or `none` if the fuel runs out. -/
def releaseLoop : Nat → chanState T → List Nat → Option (chanState T × List RelAct)
  | 0, _, _ => none
  | fuel + 1, st, steals =>
    let st1 : chanState T :=
      match steals with
      | k :: _ => { st with buf := st.buf.drop k }
      | [] => st
    let steals1 := steals.tail
    match st1.buf with
    | _ :: rest =>
      Option.map (fun r => (r.1, RelAct.recvIn :: r.2))
        (releaseLoop fuel { st1 with buf := rest } steals1)
    | [] =>
      if st1.closed then
        some (st1, [RelAct.recvIn])
      else
        Option.map (fun r => (r.1, RelAct.closeIn :: r.2))
          (releaseLoop fuel { st1 with closed := true } steals1)

theorem releaseLoop_spec :
    ∀ (fuel : Nat) (st : chanState T) (steals : List Nat),
      st.buf.length + (if st.closed then 1 else 2) ≤ fuel →
      ∃ st' acts, releaseLoop fuel st steals = some (st', acts) ∧
        acts.count RelAct.closeIn = (if st.closed then 0 else 1) ∧
        st'.closed = true := by
  intro fuel
  induction fuel with
  | zero =>
    intro st steals hm
    exfalso
    cases hc : st.closed <;> rw [hc] at hm <;> simp at hm
  | succ fuel ih =>
    intro st steals hm
    rcases st with ⟨buf, c⟩
    cases steals with
    | nil =>
      cases hb : buf with
      | cons v rest =>
        subst hb
        obtain ⟨st', acts, heq, hcount, hclosed⟩ := ih ⟨rest, c⟩ [] (by
          cases c <;> simp at hm ⊢ <;> omega)
        refine ⟨st', RelAct.recvIn :: acts, ?_, ?_, hclosed⟩
        · simp [releaseLoop, heq]
        · simpa [List.count_cons] using hcount
      | nil =>
        subst hb
        cases c with
        | true =>
          refine ⟨⟨[], true⟩, [RelAct.recvIn], by simp [releaseLoop], rfl, rfl⟩
        | false =>
          obtain ⟨st', acts, heq, hcount, hclosed⟩ := ih ⟨[], true⟩ [] (by
            simp at hm ⊢; omega)
          refine ⟨st', RelAct.closeIn :: acts, ?_, ?_, hclosed⟩
          · simp [releaseLoop, heq]
          · simpa [List.count_cons] using hcount
    | cons k srest =>
      cases hb : buf.drop k with
      | cons v rest =>
        obtain ⟨st', acts, heq, hcount, hclosed⟩ := ih ⟨rest, c⟩ srest (by
          have hlen : (buf.drop k).length ≤ buf.length := by
            rw [List.length_drop]; omega
          rw [hb] at hlen
          cases c <;> simp at hm hlen ⊢ <;> omega)
        refine ⟨st', RelAct.recvIn :: acts, ?_, ?_, hclosed⟩
        · simp [releaseLoop, hb, heq]
        · simpa [List.count_cons] using hcount
      | nil =>
        cases c with
        | true =>
          refine ⟨⟨buf.drop k, true⟩, [RelAct.recvIn], by simp [releaseLoop, hb], rfl, rfl⟩
        | false =>
          obtain ⟨st', acts, heq, hcount, hclosed⟩ := ih ⟨buf.drop k, true⟩ srest (by
            rw [hb]; simp at hm ⊢; omega)
          rw [hb] at heq
          refine ⟨st', RelAct.closeIn :: acts, ?_, ?_, hclosed⟩
          · simp [releaseLoop, hb, heq]
          · simpa [List.count_cons] using hcount

/-- Claim C10: within a single invocation of the release procedure on an open
input channel, `close(in)` is executed exactly once: once the close branch
has run, every later iteration finds the receive case ready (a closed
channel's receive is always ready), so the loop drains the channel, observes
the closed signal and exits without attempting a second close — whatever
values are buffered and whatever the concurrent worker consumes. -/
theorem release_closes_input_once (buf : List T) (steals : List Nat) (fuel : Nat)
    (hfuel : buf.length + 2 ≤ fuel) :
    ∃ st' acts, releaseLoop fuel ⟨buf, false⟩ steals = some (st', acts) ∧
      acts.count RelAct.closeIn = 1 ∧ st'.closed = true := by
  obtain ⟨st', acts, heq, hcount, hclosed⟩ := releaseLoop_spec fuel ⟨buf, false⟩ steals
    (by simpa using hfuel)
  exact ⟨st', acts, heq, by simpa using hcount, hclosed⟩

theorem release_closes_input_once_witness :
    ([1, 2] : List Nat).length + 2 ≤ 4 ∧
    ∃ st' acts, releaseLoop 4 (⟨[1, 2], false⟩ : chanState Nat) [1] = some (st', acts) ∧
      acts.count RelAct.closeIn = 1 ∧ st'.closed = true :=
  ⟨by decide, release_closes_input_once [1, 2] [1] 4 (by decide)⟩

/-- The released construct: the `sync.Once` guard state plus the input
channel.  Modelled from the documented semantics of `sync.OnceFunc` (Go
standard library): the returned function runs the wrapped function on its
first call and does nothing on every later call. -/
structure released (T : Type) where
  done : Bool
  inCh : chanState T

/-- One call to the `sync.OnceFunc`-wrapped release procedure. -/
def releaseOnce (fuel : Nat) (steals : List Nat) (r : released T) :
    Option (released T × List RelAct) :=
  if r.done then some (r, [])
  else Option.map (fun p => (⟨true, p.1⟩, p.2)) (releaseLoop fuel r.inCh steals)

/-- Claim C8: the release procedure is idempotent: the first invocation
drains and closes the input channel (exactly one close, so no double-close
panic), and any second or later invocation performs no further actions (no
receives, no close) and leaves the state unchanged. -/
theorem release_idempotent (buf : List T) (steals : List Nat) (fuel : Nat)
    (fuel2 : Nat) (steals2 : List Nat) (hfuel : buf.length + 2 ≤ fuel) :
    ∃ r1 acts, releaseOnce fuel steals ⟨false, ⟨buf, false⟩⟩ = some (r1, acts) ∧
      acts.count RelAct.closeIn = 1 ∧
      releaseOnce fuel2 steals2 r1 = some (r1, []) := by
  obtain ⟨st', acts, heq, hcount, _⟩ := release_closes_input_once buf steals fuel hfuel
  refine ⟨⟨true, st'⟩, acts, ?_, hcount, rfl⟩
  simp [releaseOnce, heq]

theorem release_idempotent_witness :
    ([9] : List Nat).length + 2 ≤ 3 ∧
    ∃ r1 acts, releaseOnce 3 [] (⟨false, ⟨[9], false⟩⟩ : released Nat) = some (r1, acts) ∧
      acts.count RelAct.closeIn = 1 ∧
      releaseOnce 5 [2] r1 = some (r1, []) :=
  ⟨by decide, release_idempotent [9] [] 3 5 [2] (by decide)⟩

end UnlimitedChannel

namespace UnlimitedChannel

/-- Discriminator for the close event. -/
def Ev.isClose : Ev T → Bool
  | .closed => true
  | .val _ => false

@[simp] theorem Ev.isClose_val (v : T) : (Ev.val v).isClose = false := rfl

@[simp] theorem Ev.isClose_closed : (Ev.closed : Ev T).isClose = true := rfl

/-- Claim C9: in every terminating execution of the worker the output channel
is closed exactly once, and the close is the worker's last action on it: the
event trace is a list of value sends followed by one single close event, so no
send ever follows the close and every terminating path ends with the close. -/
theorem run_closes_output_once_last [Inhabited T] (sendAllOnClose : Bool) (fuel : Nat)
    (q : queue T) (iv : T) (io ir : Bool) (ov : T) (ok : Bool) (inputs : List T)
    (sched : List Bool) (tr : List (Ev T))
    (h : run sendAllOnClose fuel q iv io ir ov ok inputs sched = some tr) :
    (∃ vs : List T, tr = vs.map Ev.val ++ [Ev.closed]) ∧
    tr.getLast? = some Ev.closed ∧
    (tr.filter fun e => e.isClose).length = 1 := by
  obtain ⟨vs, rfl⟩ := run_shape fuel sendAllOnClose q iv io ir ov ok inputs sched tr h
  refine ⟨⟨vs, rfl⟩, List.getLast?_concat _, ?_⟩
  simp [List.filter_append, List.filter_map, Function.comp]

theorem run_closes_output_once_last_witness :
    (∃ vs : List Nat, [Ev.val 5, Ev.closed] = vs.map Ev.val ++ [Ev.closed]) ∧
    ([Ev.val 5, Ev.closed] : List (Ev Nat)).getLast? = some Ev.closed ∧
    (([Ev.val 5, Ev.closed] : List (Ev Nat)).filter fun e => e.isClose).length = 1 :=
  run_closes_output_once_last true 9 (emptyQueue Nat) 0 true false 0 false [5] []
    [Ev.val 5, Ev.closed] (by decide)

end UnlimitedChannel
